import Mathlib

/-!
Verification of the Psymetrique transcript core: a shallow embedding of the
segmenter (`src/app_state.py`), the regex-fallback entity recognizer and the
anonymizer (`src/services/nlp_service.py`), and the manual entity insertion /
apply-anonymization operations (`src/ui/components/entities.py`).

Texts are modelled as `List Char`.  Python slices `t[:i]` / `t[i:]` with a
non-negative index `i` are `List.take i` / `List.drop i`, which agrees with
Python's clamping behaviour for every natural `i` (indices larger than the
length clamp; negative indices do not occur in the modelled paths and are not
representable).  `str.lower()` is modelled character-wise with `Char.toLower`,
and character classes of the regular expressions are modelled over their
ASCII reading, as in the transcripts the code processes.
-/

set_option maxHeartbeats 1000000

/-- Python truthiness/whitespace: the characters `str.strip()` removes. -/

def isPySpace (c : Char) : Bool :=
  c = ' ' || c = '\t' || c = '\n' || c = '\x0d' || c = '\x0b' || c = '\x0c'

/-- Python `str.strip()`: remove leading and trailing whitespace. -/

def pstrip (s : List Char) : List Char :=
  ((s.dropWhile isPySpace).reverse.dropWhile isPySpace).reverse

/-- Python `str.lower()`, character-wise. -/

def lowerL (s : List Char) : List Char := s.map Char.toLower

/-- Scan the suffixes of `l` left to right for the first one that `sub` is a
prefix of; `i` is the absolute position of the suffix `l`. -/

def pyFindFrom (sub : List Char) : Nat → List Char → Option Nat
  | i, [] => if sub.isPrefixOf [] then some i else none
  | i, c :: rest => if sub.isPrefixOf (c :: rest) then some i else pyFindFrom sub (i + 1) rest

/-- Python `hay.find(sub, start)` (for non-negative `start`): the least
position `p ≥ start` at which `sub` occurs in `hay`, if any. -/

def pyFind (hay sub : List Char) (start : Nat) : Option Nat :=
  if hay.length < start then none
  else pyFindFrom sub start (hay.drop start)

/-- `Entity` from `src/app_state.py`.  `paragraph_id` and `auto_detected` are
the attributes the UI code attaches dynamically (`entity.paragraph_id = i`);
`none` models the attribute being absent (`hasattr` returning `False`). -/

structure Entity where
  text : List Char
  entity_type : List Char
  start_pos : Nat
  end_pos : Nat
  anonymized : Bool := false
  replacement : List Char := []
  paragraph_id : Option Nat := none
  auto_detected : Option Bool := none
deriving DecidableEq, Repr

/-- `Paragraph` from `src/app_state.py`. -/

structure Paragraph where
  id : Nat
  text : List Char
  speaker : List Char := "unknown".toList
  sentiment : List Char := "neutral".toList
  entities : List Entity := []
  codes : List (List Char) := []
deriving DecidableEq, Repr

instance : Inhabited Paragraph := ⟨{ id := 0, text := [] }⟩

/-- The slice of `AppState` (`src/app_state.py`) the entity workflow touches:
the paragraph list, the flat entity list and the working transcript. -/

structure AppState where
  paragraphs : List Paragraph
  entities : List Entity
  current_transcript : List Char := []
deriving DecidableEq, Repr

/-- The f-string `f"[{entity_type}]"`. -/

def defaultRepl (ty : List Char) : List Char := '[' :: (ty ++ [']'])

/-- `entity.replacement or f"[{entity.entity_type}]"` (empty string is falsy). -/

def effRepl (e : Entity) : List Char :=
  if e.replacement = [] then defaultRepl e.entity_type else e.replacement

/-- One iteration of the loop in `NLPService.anonymize_text`: splice the
replacement over `text[start_pos:end_pos]` if the entity is marked. -/

def spliceOne (t : List Char) (e : Entity) : List Char :=
  if e.anonymized then t.take e.start_pos ++ effRepl e ++ t.drop e.end_pos else t

/-- The ordering used by `sorted(entities, key=lambda e: e.start_pos,
reverse=True)`: descending `start_pos`. -/

def byStartDesc (a b : Entity) : Prop := b.start_pos ≤ a.start_pos

instance : DecidableRel byStartDesc := fun a b => Nat.decLe b.start_pos a.start_pos

instance : IsTotal Entity byStartDesc := ⟨fun a b => Nat.le_total b.start_pos a.start_pos⟩

instance : IsTrans Entity byStartDesc := ⟨fun _ _ _ h h' => Nat.le_trans h' h⟩

/-- `NLPService.anonymize_text`: sort the entities by `start_pos` in reverse
order (Python's `sorted` is a stable sort; insertion sort is also stable, so
it produces the identical list) and splice each marked entity's replacement
over its original offsets. -/

def anonymize_text (t : List Char) (es : List Entity) : List Char :=
  (es.insertionSort byStartDesc).foldl spliceOne t

/-- Modelled from the spec (the correctness property C1 compares the code
against): for entities listed in ascending position order, each entity's
replacement stands exactly in place of the substring at its offsets, and the
text before, between and after the entities is kept verbatim.  `base` is the
offset up to which the text has already been emitted. -/

def spliceFrom (t : List Char) (base : Nat) : List Entity → List Char
  | [] => t.drop base
  | e :: es => (t.drop base).take (e.start_pos - base) ++ effRepl e ++ spliceFrom t e.end_pos es

/-- Python `sub in s` (substring containment). -/

def containsSub (sub s : List Char) : Bool := (pyFind s sub 0).isSome

/-- Python `s.split(sep)` for a non-empty separator: cut at each leftmost
non-overlapping occurrence of `sep`, scanning left to right.  `acc` holds the
reversed current segment; `skip` counts separator characters still to be
consumed after a cut, so the recursion is structural on the text.  (Python
raises on an empty separator; every call site uses a non-empty literal.) -/

def splitOnSepAux (sep : List Char) : Nat → List Char → List Char → List (List Char)
  | _, acc, [] => [acc.reverse]
  | skip + 1, acc, _ :: rest => splitOnSepAux sep skip acc rest
  | 0, acc, c :: rest =>
    if 0 < sep.length ∧ sep.isPrefixOf (c :: rest) = true then
      acc.reverse :: splitOnSepAux sep (sep.length - 1) [] rest
    else splitOnSepAux sep 0 (c :: acc) rest

/-- Python `s.split(sep)`. -/

def splitOnSep (sep s : List Char) : List (List Char) := splitOnSepAux sep 0 [] s

/-- The list comprehension `[p.strip() for p in parts if p.strip()]` used by
all three strategies of `AppState._split_into_paragraphs`. -/

def stripNonEmpty (parts : List (List Char)) : List (List Char) :=
  parts.filterMap fun p => if pstrip p = [] then none else some (pstrip p)

/-- Strategy 1 of `AppState._split_into_paragraphs`: split on `"\n\n"`. -/

def strat1 (c : List Char) : List (List Char) := stripNonEmpty (splitOnSep "\n\n".toList c)

/-- Strategy 2: split on single `"\n"`. -/

def strat2 (c : List Char) : List (List Char) := stripNonEmpty (splitOnSep "\n".toList c)

/-- A sentence-ending character of the regex `[.!?]+`. -/

def isSentencePunct (c : Char) : Bool := c = '.' || c = '!' || c = '?'

/-- `re.split(r'[.!?]+', s)`: segments between maximal runs of sentence
punctuation.  `inRun` records whether the previous character belonged to the
current punctuation run (the current segment is emitted at the run's first
character, and the rest of the run is skipped). -/

def splitPunctAux : Bool → List Char → List Char → List (List Char)
  | _, acc, [] => [acc.reverse]
  | inRun, acc, c :: rest =>
    if isSentencePunct c then
      if inRun then splitPunctAux true acc rest
      else acc.reverse :: splitPunctAux true [] rest
    else splitPunctAux false (c :: acc) rest

/-- Strategy 3: split on sentence punctuation runs. -/

def strat3 (c : List Char) : List (List Char) := stripNonEmpty (splitPunctAux false [] c)

/-- The lookahead `(?=\s+[A-Z])` of the post-pass regex: at least one
whitespace character followed by an upper-case letter. -/

def dotCapLook (cs : List Char) : Bool :=
  let ws := cs.takeWhile isPySpace
  !ws.isEmpty &&
    (match (cs.drop ws.length).head? with
     | some c => c.isUpper
     | none => false)

/-- `re.split(r'\.(?=\s+[A-Z])', s)`: cut at each `'.'` directly followed by
whitespace and a capital letter; the dot is consumed, the lookahead is not. -/

def splitDotCapAux : List Char → List Char → List (List Char)
  | acc, [] => [acc.reverse]
  | acc, c :: rest =>
    if c = '.' && dotCapLook rest then acc.reverse :: splitDotCapAux [] rest
    else splitDotCapAux (c :: acc) rest

/-- The post-pass of `AppState._split_into_paragraphs`: a single unit longer
than 500 characters is re-split on `'. '`+capital, re-appending a period to
units that lost one (`s.strip() + '.' if not s.endswith('.') else s.strip()`,
keeping only units with non-empty strip). -/

def postPass (pts : List (List Char)) : List (List Char) :=
  match pts with
  | [u] =>
    if 500 < u.length then
      let sentences := splitDotCapAux [] u
      if 1 < sentences.length then
        sentences.filterMap fun s =>
          if pstrip s = [] then none
          else some (if s.getLast? = some '.' then pstrip s else pstrip s ++ ['.'])
      else pts
    else pts
  | _ => pts

/-- The strategy selection of `AppState._split_into_paragraphs`: keyed on the
presence of the delimiter in the raw text (`'\n\n' in content`, else
`'\n' in content`, else sentence split). -/

def splitStrategies (c : List Char) : List (List Char) :=
  if containsSub "\n\n".toList c then strat1 c
  else if containsSub "\n".toList c then strat2 c
  else strat3 c

/-- `AppState._split_into_paragraphs`, as the list of paragraph texts. -/

def split_into_paragraphs_texts (c : List Char) : List (List Char) :=
  postPass (splitStrategies c)

/-- `AppState._split_into_paragraphs`: paragraph records with dense zero-based
ids. -/

def split_into_paragraphs (c : List Char) : List Paragraph :=
  (split_into_paragraphs_texts c).enum.map fun p => { id := p.1, text := p.2 }

/-- Modelled from the spec: "applied in strict priority order, stopping at
the first strategy that yields ≥ 1 non-empty unit".  Used only to compare the
claimed selection rule with the code's delimiter-presence rule. -/

def claimStrategySelect (c : List Char) : List (List Char) :=
  if strat1 c ≠ [] then strat1 c
  else if strat2 c ≠ [] then strat2 c
  else strat3 c

/-- `replacement.strip() if replacement else f'[{entity_type}]'` (the empty
string is falsy, so a blank-but-nonempty replacement is stripped to `""`). -/

def manualRepl (rep K : List Char) : List Char :=
  if rep = [] then defaultRepl K else pstrip rep

/-- The entity the bulk-insert loop creates for an occurrence at `pos` of the
searched text in paragraph `i`: verbatim original-casing slice
`paragraph.text[pos : pos + len(term)]`, `end_pos = pos + len(actual)`. -/

def mkBulkEntity (i : Nat) (ptext term K rep : List Char) (pos : Nat) : Entity :=
  { text := (ptext.drop pos).take term.length, entity_type := K, start_pos := pos,
    end_pos := pos + ((ptext.drop pos).take term.length).length,
    anonymized := false, replacement := manualRepl rep K,
    paragraph_id := some i, auto_detected := some false }

/-- The `while True` search loop of `EntitiesSection._add_entity_without_search`
over one paragraph: `find` the next case-insensitive occurrence from `start`,
skip it when an entity with the identical `(paragraph, start_pos)` pair already
exists, resume at `pos + 1`.  `fuel` bounds the recursion; the wrapper passes
enough fuel for the loop to run to its `find`-fails exit. -/

def bulkScanPara (i : Nat) (ptext term K rep : List Char) :
    Nat → Nat → List Entity × Nat → List Entity × Nat
  | 0, _, acc => acc
  | fuel + 1, start, (ents, created) =>
    match pyFind (lowerL ptext) (lowerL term) start with
    | none => (ents, created)
    | some pos =>
      if ents.any (fun x => decide (x.paragraph_id = some i ∧ x.start_pos = pos)) then
        bulkScanPara i ptext term K rep fuel (pos + 1) (ents, created)
      else
        bulkScanPara i ptext term K rep fuel (pos + 1)
          (ents ++ [mkBulkEntity i ptext term K rep pos], created + 1)

/-- `for i, paragraph in enumerate(self.app_state.paragraphs)` of the bulk
insert, threading the shared entity list and the created counter. -/

def bulkLoopParas (term K rep : List Char) : Nat → List Paragraph → List Entity × Nat → List Entity × Nat
  | _, [], acc => acc
  | i, p :: ps, acc =>
    bulkLoopParas term K rep (i + 1) ps
      (bulkScanPara i p.text term K rep (p.text.length + 2) 0 acc)

/-- The signalled outcome of `EntitiesSection._add_entity_without_search`
(`ui.notify` messages). -/

inductive BulkOutcome where
  | emptyText
  | duplicateText
  | generalAdded
  | added (n : Nat)
deriving DecidableEq, Repr

/-- The ownerless "general" entity created when the text occurs in no
paragraph (no `paragraph_id` attribute is set on it). -/

def generalEntity (term K rep : List Char) : Entity :=
  { text := term, entity_type := K, start_pos := 0, end_pos := term.length,
    anonymized := false, replacement := manualRepl rep K,
    auto_detected := some false }

/-- `EntitiesSection._add_entity_without_search`: empty-text guard, then the
whole-collection duplicate-by-text (case-insensitive) check, then the bulk
per-paragraph occurrence scan; if nothing was created, a single general
entity is appended instead. -/

def add_entity_without_search (st : AppState) (raw K rep : List Char) :
    AppState × BulkOutcome :=
  if pstrip raw = [] then (st, .emptyText)
  else
    let t := pstrip raw
    if st.entities.any (fun e => decide (lowerL e.text = lowerL t)) then
      (st, .duplicateText)
    else
      let r := bulkLoopParas t K rep 0 st.paragraphs (st.entities, 0)
      if r.2 = 0 then
        ({ st with entities := r.1 ++ [generalEntity t K rep] }, .generalAdded)
      else ({ st with entities := r.1 }, .added r.2)

/-- The signalled outcome of `EntitiesSection._create_entity_from_match`. -/

inductive MatchOutcome where
  | notFound
  | occupied
  | added
deriving DecidableEq, Repr

/-- `EntitiesSection._create_entity_from_match`: resolve the first
case-insensitive occurrence of the literal text in the chosen paragraph's
current text, reject when that paragraph already has any entity, otherwise
append the new entity. -/

def create_entity_from_match (st : AppState) (term K rep : List Char) (pid : Nat) :
    AppState × MatchOutcome :=
  let para := st.paragraphs.getD pid default
  match pyFind (lowerL para.text) (lowerL term) 0 with
  | none => (st, .notFound)
  | some s =>
    if st.entities.any (fun en => decide (en.paragraph_id = some pid)) then
      (st, .occupied)
    else
      ({ st with entities := st.entities ++
          [{ text := (para.text.drop s).take term.length, entity_type := K,
             start_pos := s, end_pos := s + ((para.text.drop s).take term.length).length,
             anonymized := false, replacement := manualRepl rep K,
             paragraph_id := some pid, auto_detected := some false }] }, .added)

/-- `EntitiesSection._apply_anonymization`: early return when there are no
entities or none is marked; otherwise rewrite each paragraph's text with the
marked entities carrying its `paragraph_id`, rejoin the transcript with
`'\n\n'.join`, and clear the entity list. -/

def apply_anonymization (st : AppState) : AppState :=
  if st.entities = [] then st
  else
    let marked := st.entities.filter (·.anonymized)
    if marked = [] then st
    else
      let paras := st.paragraphs.map fun p =>
        let pes := marked.filter fun e => decide (e.paragraph_id = some p.id)
        if pes = [] then p else { p with text := anonymize_text p.text pes }
      { st with paragraphs := paras,
                current_transcript := List.intercalate "\n\n".toList (paras.map (·.text)),
                entities := [] }

/-- The conflict predicate of the bulk-insert loop. -/

def bulkConflict (i pos : Nat) (x : Entity) : Bool :=
  decide (x.paragraph_id = some i ∧ x.start_pos = pos)

/-- Every position at which `sub` occurs in `hay` (the claim's "every position
where T occurs", case handling done by the caller). -/

def occPositions (hay sub : List Char) : List Nat :=
  (List.range (hay.length + 1)).filter fun p => sub.isPrefixOf (hay.drop p)

/-- The suffix of `occPositions` from `start` on. -/

def occPositionsFrom (hay sub : List Char) (start : Nat) : List Nat :=
  (List.range' start (hay.length + 1 - start)).filter fun p => sub.isPrefixOf (hay.drop p)

/-- The entities the bulk insert is specified to create in paragraph `i`: one
per occurrence position, except positions where an entity of `old` already
has the identical `(paragraph, start_pos)` pair. -/

def bulkExpectedForPara (old : List Entity) (i : Nat) (ptext term K rep : List Char) :
    List Entity :=
  ((occPositions (lowerL ptext) (lowerL term)).filter fun pos =>
      !(old.any (bulkConflict i pos))).map (mkBulkEntity i ptext term K rep)

/-- The full specified creation list of the bulk insert, paragraphs enumerated
from `i`. -/

def bulkExpectedFrom (old : List Entity) (term K rep : List Char) :
    Nat → List Paragraph → List Entity
  | _, [] => []
  | i, p :: ps =>
    bulkExpectedForPara old i p.text term K rep ++
      bulkExpectedFrom old term K rep (i + 1) ps

/-- Python regex `\w` over its ASCII reading. -/

def isWordChar (c : Char) : Bool := c.isAlpha || c.isDigit || c = '_'

/-- Word-character test through an optional character (`none` = outside the
string, counted as a non-word position for `\b`). -/

def owc : Option Char → Bool
  | some c => isWordChar c
  | none => false

/-- Length of the run of characters satisfying `φ` starting at `p`. -/

def runLen (φ : Char → Bool) (cs : List Char) (p : Nat) : Nat :=
  ((cs.drop p).takeWhile φ).length

/-- Is the character at `p` (if any) a word character (`\b` test helper)? -/

def wordAfter (cs : List Char) (p : Nat) : Bool := owc (cs.get? p)

def digitRun (cs : List Char) (p : Nat) : Nat := runLen Char.isDigit cs p

/-- The greedy `(?:\s+[A-Z][a-z]+)*` tail of the PERSON pattern under
`re.IGNORECASE` ([A-Z]/[a-z] match any letter): keep absorbing a whitespace
run followed by a letter run of length ≥ 2 whose following character keeps
the final `\b` satisfiable; stop (the regex drops the failed group and ends
at the previous word, where `\b` holds) otherwise. -/

def personGroups (cs : List Char) : Nat → Nat → Nat
  | 0, e => e
  | fuel + 1, e =>
    let ws := runLen isPySpace cs e
    let run := runLen Char.isAlpha cs (e + ws)
    if ws = 0 || run < 2 || wordAfter cs (e + ws + run) then e
    else personGroups cs fuel (e + ws + run)

/-- `\b[A-Z][a-z]+(?:\s+[A-Z][a-z]+)*\b` with `re.IGNORECASE`: a letter run of
length ≥ 2 (the greedy `[a-z]+` absorbs the whole run, so a following word
character kills the match — no backtrack can save it), then further words. -/

def personMatch (prev : Option Char) (cs : List Char) : Option Nat :=
  if owc prev then none
  else
    let run := runLen Char.isAlpha cs 0
    if run < 2 then none
    else if wordAfter cs run then none
    else some (personGroups cs cs.length run)

def sepAt (cs : List Char) (p : Nat) : Bool :=
  cs.get? p = some '/' || cs.get? p = some '-'

/-- The `\d{2,4}\b` tail of DATE alternative 1: only the whole digit run can
satisfy the trailing boundary, and only with length in range. -/

def dateTailA (cs : List Char) (q : Nat) : Option Nat :=
  if 2 ≤ digitRun cs q && digitRun cs q ≤ 4 && !wordAfter cs (q + digitRun cs q) then
    some (q + digitRun cs q)
  else none

/-- The `\d{1,2}\b` tail of DATE alternative 2. -/

def dateTailB (cs : List Char) (q : Nat) : Option Nat :=
  if 1 ≤ digitRun cs q && digitRun cs q ≤ 2 && !wordAfter cs (q + digitRun cs q) then
    some (q + digitRun cs q)
  else none

/-- The `\d{4}\b` tail of DATE alternative 3 (a fifth digit fails `\b`). -/

def dateTailC (cs : List Char) (p5 : Nat) : Option Nat :=
  if 4 ≤ digitRun cs p5 && !wordAfter cs (p5 + 4) then some (p5 + 4) else none

/-- `\d{1,2}(slash|dash)\d{1,2}(slash|dash)\d{2,4}\b`: the separator directly follows the
digit group, so only `min run 2` digits can precede it, and the final group
must be the whole digit run (a backtracked shorter group is followed by a
digit, failing `\b`). -/

def dateAltA (cs : List Char) : Option Nat :=
  let r1 := digitRun cs 0
  if r1 = 0 then none else
  let l1 := min r1 2
  if !sepAt cs l1 then none else
  let p := l1 + 1
  let r2 := digitRun cs p
  if r2 = 0 then none else
  let l2 := min r2 2
  if !sepAt cs (p + l2) then none else
  dateTailA cs (p + l2 + 1)

/-- `\d{4}(slash|dash)\d{1,2}(slash|dash)\d{1,2}\b`. -/

def dateAltB (cs : List Char) : Option Nat :=
  let r1 := digitRun cs 0
  if !(4 ≤ r1 && sepAt cs 4) then none else
  let p := 5
  let r2 := digitRun cs p
  if r2 = 0 then none else
  let l2 := min r2 2
  if !sepAt cs (p + l2) then none else
  dateTailB cs (p + l2 + 1)

def monthPrefixes : List (List Char) :=
  ["jan".toList, "feb".toList, "mar".toList, "apr".toList, "may".toList, "jun".toList,
   "jul".toList, "aug".toList, "sep".toList, "oct".toList, "nov".toList, "dec".toList]

/-- `(?:Jan|...|Dec)[a-z]*\s+\d{1,2},?\s+\d{4}\b` with `re.IGNORECASE`. -/

def dateAltC (cs : List Char) : Option Nat :=
  if !(monthPrefixes.contains ((cs.take 3).map Char.toLower)) then none else
  let la := runLen Char.isAlpha cs 3
  let p := 3 + la
  let w1 := runLen isPySpace cs p
  if w1 = 0 then none else
  let p2 := p + w1
  let rd := digitRun cs p2
  if rd = 0 || 3 ≤ rd then none else
  let p3 := p2 + rd
  let p4 := if cs.get? p3 = some ',' then p3 + 1 else p3
  let w2 := runLen isPySpace cs p4
  if w2 = 0 then none else
  dateTailC cs (p4 + w2)

/-- The DATE pattern: `\b` then the three alternatives in order, each with the
trailing `\b` folded in. -/

def dateMatch (prev : Option Char) (cs : List Char) : Option Nat :=
  if owc prev then none
  else
    match dateAltA cs with
    | some k => some k
    | none =>
      match dateAltB cs with
      | some k => some k
      | none => dateAltC cs

def ampmFirst (o : Option Char) : Bool :=
  o = some 'a' || o = some 'A' || o = some 'p' || o = some 'P'

def ampmSecond (o : Option Char) : Bool := o = some 'm' || o = some 'M'

/-- The optional `(?:\s*[AaPp][Mm])?\b` tail of the TIME pattern, greedy with
fallback to the bare `\b`. -/

def timeTail (cs : List Char) (e : Nat) : Option Nat :=
  let ws := runLen isPySpace cs e
  let q := e + ws
  if ampmFirst (cs.get? q) && ampmSecond (cs.get? (q + 1)) && !wordAfter cs (q + 2) then
    some (q + 2)
  else if !wordAfter cs e then some e
  else none

/-- `\d{2}(?::\d{2})?(?:\s*[AaPp][Mm])?\b` from position `p` (just after the
colon): greedy optional seconds group with backtracking to the no-seconds
parse. -/

def timeAfterColon (cs : List Char) (p : Nat) : Option Nat :=
  if digitRun cs p < 2 then none
  else
    if cs.get? (p + 2) = some ':' && 2 ≤ digitRun cs (p + 3) then
      match timeTail cs (p + 5) with
      | some k => some k
      | none => timeTail cs (p + 2)
    else timeTail cs (p + 2)

/-- `\b\d{1,2}:` then `timeAfterColon`. -/

def timeMatch (prev : Option Char) (cs : List Char) : Option Nat :=
  if owc prev then none
  else
    let r1 := digitRun cs 0
    if r1 = 0 then none else
    let l1 := min r1 2
    if !(cs.get? l1 = some ':') then none else
    timeAfterColon cs (l1 + 1)

def phoneSepAt (cs : List Char) (p : Nat) : Bool :=
  match cs.get? p with
  | some c => c = '-' || c = '.' || isPySpace c
  | none => false

/-- The `[0-9]{4}\b` tail of the PHONE pattern. -/

def phoneTail (cs : List Char) (p6 : Nat) : Option Nat :=
  if digitRun cs p6 < 4 then none
  else if wordAfter cs (p6 + 4) then none
  else some (p6 + 4)

/-- `\(?[0-9]{3}\)?[-.\s]?[0-9]{3}[-.\s]?[0-9]{4}\b` from position `p0`; the
optional `(`/`)`/separator elements are forced by the following digit
requirement, so consumption is deterministic. -/

def phoneCore (cs : List Char) (p0 : Nat) : Option Nat :=
  let p1 := if cs.get? p0 = some '(' then p0 + 1 else p0
  if digitRun cs p1 < 3 then none else
  let p2 := p1 + 3
  let p3 := if cs.get? p2 = some ')' then p2 + 1 else p2
  let p4 := if phoneSepAt cs p3 then p3 + 1 else p3
  if digitRun cs p4 < 3 then none else
  let p5 := p4 + 3
  let p6 := if phoneSepAt cs p5 then p5 + 1 else p5
  phoneTail cs p6

/-- The greedy leading group `(?:\+?1[-.\s]?)?` consumed up to `q`: try the
core after it, dropping the group (restart at 0) on failure. -/

def phoneWithLead (cs : List Char) (q : Nat) : Option Nat :=
  match phoneCore cs (if phoneSepAt cs q then q + 1 else q) with
  | some k => some k
  | none => phoneCore cs 0

/-- `\b(?:\+?1[-.\s]?)?` then the core; the leading group is tried greedily
and dropped on failure.  `\b` compares the word-ness of the previous
character and the first matched character (which may be `+` or `(`). -/

def phoneMatch (prev : Option Char) (cs : List Char) : Option Nat :=
  if owc prev = owc (cs.get? 0) then none
  else
    if cs.get? 0 = some '+' then
      (if cs.get? 1 = some '1' then phoneWithLead cs 2 else phoneCore cs 0)
    else if cs.get? 0 = some '1' then phoneWithLead cs 1
    else phoneCore cs 0

def localChar (c : Char) : Bool :=
  c.isAlpha || c.isDigit || c = '.' || c = '_' || c = '%' || c = '+' || c = '-'

def domChar (c : Char) : Bool := c.isAlpha || c.isDigit || c = '.' || c = '-'

/-- The literal class `[A-Z|a-z]` of the EMAIL pattern (it contains `|`). -/

def tldChar (c : Char) : Bool := c.isAlpha || c = '|'

/-- Greedy `[A-Z|a-z]{2,}\b` over a class run of length `r` starting at `t0`:
take the longest length `k ≥ 2` whose following position is a `\b`. -/

def tldScan (cs : List Char) (t0 : Nat) : Nat → Option Nat
  | 0 => none
  | k + 1 =>
    if k + 1 < 2 then none
    else if owc (cs.get? (t0 + k)) != owc (cs.get? (t0 + k + 1)) then some (t0 + k + 1)
    else tldScan cs t0 k

/-- Greedy `[A-Za-z0-9.-]+\.` with backtracking: try the longest domain part
`n' ≥ 1` such that the character at `d0 + n'` is the literal dot and the TLD
matches after it. -/

def emailDomScan (cs : List Char) (d0 : Nat) : Nat → Option Nat
  | 0 => none
  | n + 1 =>
    if cs.get? (d0 + (n + 1)) = some '.' then
      match tldScan cs (d0 + n + 2) (runLen tldChar cs (d0 + n + 2)) with
      | some k => some k
      | none => emailDomScan cs d0 n
    else emailDomScan cs d0 n

/-- `\b[A-Za-z0-9._%+-]+@[A-Za-z0-9.-]+\.[A-Z|a-z]{2,}\b`. -/

def emailMatch (prev : Option Char) (cs : List Char) : Option Nat :=
  if owc prev = owc (cs.get? 0) then none
  else
    let lr := runLen localChar cs 0
    if lr = 0 then none else
    if !(cs.get? lr = some '@') then none else
    let dr := runLen domChar cs (lr + 1)
    if dr = 0 then none else
    emailDomScan cs (lr + 1) dr

/-- Greedy `(?:,\d{3})*` of the MONEY pattern. -/

def moneyGroups (cs : List Char) : Nat → Nat → Nat
  | 0, p => p
  | fuel + 1, p =>
    if cs.get? p = some ',' && 3 ≤ digitRun cs (p + 1) then moneyGroups cs fuel (p + 4)
    else p

/-- `\$\d+(?:,\d{3})*(?:\.\d{2})?` (no `\b`). -/

def moneyMatch (_prev : Option Char) (cs : List Char) : Option Nat :=
  if !(cs.get? 0 = some '$') then none else
  let r := digitRun cs 1
  if r = 0 then none else
  let p := moneyGroups cs cs.length (1 + r)
  if cs.get? p = some '.' && 2 ≤ digitRun cs (p + 1) then some (p + 3) else some p

/-- `\d+(?:\.\d+)?%` (no `\b`). -/

def percentMatch (_prev : Option Char) (cs : List Char) : Option Nat :=
  let r := digitRun cs 0
  if r = 0 then none else
  if cs.get? r = some '.' && 1 ≤ digitRun cs (r + 1) then
    (if cs.get? (r + 1 + digitRun cs (r + 1)) = some '%' then
       some (r + 1 + digitRun cs (r + 1) + 1)
     else none)
  else if cs.get? r = some '%' then some (r + 1) else none

/-- `re.finditer`: try the matcher at each position left to right; a match of
length `k` resumes after it (non-overlapping within a pattern).  The matcher
receives the previous character for `\b`.  `fuel` bounds the recursion (the
position strictly increases, so `t.length` is enough). -/

def scanFrom (m : Option Char → List Char → Option Nat) (t : List Char) :
    Nat → Nat → List (Nat × Nat)
  | 0, _ => []
  | fuel + 1, i =>
    if t.length ≤ i then []
    else
      match m (if i = 0 then none else t.get? (i - 1)) (t.drop i) with
      | none => scanFrom m t fuel (i + 1)
      | some k => (i, i + k) :: scanFrom m t fuel (i + max k 1)

/-- The `patterns` dict of `NLPService._extract_entities_regex`, in insertion
order. -/

def patternsList : List (List Char × (Option Char → List Char → Option Nat)) :=
  [("PERSON".toList, personMatch), ("DATE".toList, dateMatch), ("TIME".toList, timeMatch),
   ("PHONE".toList, phoneMatch), ("EMAIL".toList, emailMatch), ("MONEY".toList, moneyMatch),
   ("PERCENT".toList, percentMatch)]

/-- The common-word skip list applied to PERSON matches. -/

def personStopWords : List (List Char) :=
  ["the".toList, "and".toList, "but".toList, "for".toList, "with".toList, "this".toList,
   "that".toList, "they".toList, "them".toList, "their".toList]

/-- `NLPService._extract_entities_regex`: per pattern type, all finditer
matches; PERSON matches equal (lower-cased) to a stop word are skipped;
`entity.text` is the verbatim `match.group()` slice of the original text. -/

def extract_entities_regex (t : List Char) : List Entity :=
  (patternsList.map fun pm =>
    (scanFrom pm.2 t t.length 0).filterMap fun se =>
      if pm.1 = "PERSON".toList ∧ lowerL ((t.drop se.1).take (se.2 - se.1)) ∈ personStopWords
      then none
      else some { text := (t.drop se.1).take (se.2 - se.1), entity_type := pm.1,
                  start_pos := se.1, end_pos := se.2 }).flatten

/-- A raw span as returned by the external recognizer capability
(Stanza `sentence.ents`, flattened in document order). -/

structure RawEnt where
  text : List Char
  native_type : List Char
  start_char : Nat
  end_char : Nat

/-- `NLPService._map_stanza_entity_type`: `mapping.get(t, t)`. -/

def stanzaTypeMapping : List (List Char × List Char) :=
  [("PERSON".toList, "PERSON".toList), ("PER".toList, "PERSON".toList),
   ("ORG".toList, "ORGANIZATION".toList), ("ORGANIZATION".toList, "ORGANIZATION".toList),
   ("GPE".toList, "LOCATION".toList), ("LOCATION".toList, "LOCATION".toList),
   ("LOC".toList, "LOCATION".toList), ("DATE".toList, "DATE".toList),
   ("TIME".toList, "TIME".toList), ("MONEY".toList, "MONEY".toList),
   ("PERCENT".toList, "PERCENT".toList), ("PHONE".toList, "PHONE".toList),
   ("EMAIL".toList, "EMAIL".toList), ("MISC".toList, "MISC".toList)]

def map_stanza_entity_type (t : List Char) : List Char :=
  match stanzaTypeMapping.lookup t with
  | some m => m
  | none => t

/-- `NLPService.extract_entities`: the recognizer capability is either
unavailable (`self.nlp_pipeline is None`) — modelled by `none` — or a
function that returns raw spans or raises — modelled by `Except`.  On
unavailability or error the regex fallback runs on the same input; entities
appended before the error are discarded, as the `except` branch returns the
fallback's fresh list. -/

def extract_entities
    (pipeline : Option (List Char → Except (List Char) (List RawEnt)))
    (text : List Char) : List Entity :=
  match pipeline with
  | some f =>
    match f text with
    | Except.ok raws =>
      raws.map fun r =>
        { text := r.text, entity_type := map_stanza_entity_type r.native_type,
          start_pos := r.start_char, end_pos := r.end_char }
    | Except.error _ => extract_entities_regex text
  | none => extract_entities_regex text

/-- The offset-validity invariant of claim C3 for an entity against the text
it was created from: in-bounds half-open offsets whose slice is the entity's
stored text. -/

def entityValidFor (t : List Char) (e : Entity) : Prop :=
  e.start_pos ≤ e.end_pos ∧ e.end_pos ≤ t.length ∧
    (t.drop e.start_pos).take (e.end_pos - e.start_pos) = e.text

theorem pyFindFrom_some (sub : List Char) :
    ∀ (l : List Char) (i p : Nat), pyFindFrom sub i l = some p →
      i ≤ p ∧ p ≤ i + l.length ∧ sub.isPrefixOf (l.drop (p - i)) = true ∧
      ∀ q, i ≤ q → q < p → sub.isPrefixOf (l.drop (q - i)) = false := by
  intro l
  induction l with
  | nil =>
    intro i p h
    simp only [pyFindFrom] at h
    by_cases hp : sub.isPrefixOf [] = true
    · simp [hp] at h
      subst h
      exact ⟨le_refl _, by simp, by simpa using hp, fun q hq hq' => absurd (lt_of_le_of_lt hq hq') (lt_irrefl _)⟩
    · simp [hp] at h
  | cons c rest ih =>
    intro i p h
    simp only [pyFindFrom] at h
    by_cases hp : sub.isPrefixOf (c :: rest) = true
    · simp [hp] at h
      subst h
      exact ⟨le_refl _, by simp, by simpa using hp, fun q hq hq' => absurd (lt_of_le_of_lt hq hq') (lt_irrefl _)⟩
    · simp [hp] at h
      obtain ⟨h1, h2, h3, h4⟩ := ih (i + 1) p h
      refine ⟨by omega, by simp; omega, ?_, ?_⟩
      · have : (c :: rest).drop (p - i) = rest.drop (p - (i + 1)) := by
          have : p - i = (p - (i + 1)) + 1 := by omega
          rw [this, List.drop_succ_cons]
        rwa [this]
      · intro q hq hqp
        rcases Nat.eq_or_lt_of_le hq with heq | hlt
        · subst heq
          simpa using (Bool.not_eq_true _).mp hp
        · have : (c :: rest).drop (q - i) = rest.drop (q - (i + 1)) := by
            have : q - i = (q - (i + 1)) + 1 := by omega
            rw [this, List.drop_succ_cons]
          rw [this]
          exact h4 q hlt hqp

theorem pyFindFrom_none (sub : List Char) :
    ∀ (l : List Char) (i : Nat), pyFindFrom sub i l = none →
      ∀ d, d ≤ l.length → sub.isPrefixOf (l.drop d) = false := by
  intro l
  induction l with
  | nil =>
    intro i h d hd
    simp only [pyFindFrom] at h
    by_cases hp : sub.isPrefixOf [] = true
    · simp [hp] at h
    · have hd0 : d = 0 := by simpa using hd
      subst hd0
      simpa using (Bool.not_eq_true _).mp hp
  | cons c rest ih =>
    intro i h d hd
    simp only [pyFindFrom] at h
    by_cases hp : sub.isPrefixOf (c :: rest) = true
    · simp [hp] at h
    · simp [hp] at h
      match d with
      | 0 => simpa using (Bool.not_eq_true _).mp hp
      | d' + 1 =>
        rw [List.drop_succ_cons]
        exact ih (i + 1) h d' (by simpa using hd)

theorem pyFind_some (hay sub : List Char) (start p : Nat)
    (h : pyFind hay sub start = some p) :
    start ≤ p ∧ p ≤ hay.length ∧ sub.isPrefixOf (hay.drop p) = true ∧
      ∀ q, start ≤ q → q < p → sub.isPrefixOf (hay.drop q) = false := by
  rw [pyFind] at h
  by_cases hs : hay.length < start
  · simp [hs] at h
  · simp [hs] at h
    obtain ⟨h1, h2, h3, h4⟩ := pyFindFrom_some sub _ start p h
    have hlen : (hay.drop start).length = hay.length - start := List.length_drop start hay
    refine ⟨h1, by omega, ?_, ?_⟩
    · rwa [List.drop_drop, Nat.add_sub_cancel' h1] at h3
    · intro q hq hqp
      have := h4 q hq hqp
      rwa [List.drop_drop, Nat.add_sub_cancel' hq] at this

theorem pyFind_none (hay sub : List Char) (start : Nat)
    (h : pyFind hay sub start = none) :
    ∀ q, start ≤ q → q ≤ hay.length → sub.isPrefixOf (hay.drop q) = false := by
  intro q hq hql
  rw [pyFind] at h
  by_cases hs : hay.length < start
  · omega
  · simp [hs] at h
    have hlen : (hay.drop start).length = hay.length - start := List.length_drop start hay
    have := pyFindFrom_none sub _ start h (q - start) (by omega)
    rwa [List.drop_drop, Nat.add_sub_cancel' hq] at this

/-- Processing marked entities right-to-left (the `foldr` view of the code's
descending-sorted `foldl`) realizes the ascending-order splice specification,
provided the entities lie beyond `base`, are in bounds and do not overlap. -/
theorem foldr_spliceOne_eq_spliceFrom (es : List Entity) (t : List Char) :
    ∀ base : Nat, base ≤ t.length →
    (∀ e ∈ es, e.anonymized = true ∧ base ≤ e.start_pos ∧
      e.start_pos ≤ e.end_pos ∧ e.end_pos ≤ t.length) →
    es.Pairwise (fun a b => a.end_pos ≤ b.start_pos) →
    es.foldr (fun e acc => spliceOne acc e) t = t.take base ++ spliceFrom t base es := by
  induction es with
  | nil =>
    intro base _ _ _
    exact (List.take_append_drop base t).symm
  | cons e es ih =>
    intro base hbase hall hpw
    obtain ⟨hmk, hbs, hse, hel⟩ := hall e (List.mem_cons_self e es)
    have hall' : ∀ f ∈ es, f.anonymized = true ∧ e.end_pos ≤ f.start_pos ∧
        f.start_pos ≤ f.end_pos ∧ f.end_pos ≤ t.length := by
      intro f hf
      obtain ⟨h1, _, h3, h4⟩ := hall f (List.mem_cons_of_mem e hf)
      exact ⟨h1, List.rel_of_pairwise_cons hpw hf, h3, h4⟩
    have hrec := ih e.end_pos hel hall' hpw.of_cons
    have htlen : (t.take e.end_pos).length = e.end_pos := by
      rw [List.length_take]; exact min_eq_left hel
    calc (e :: es).foldr (fun e acc => spliceOne acc e) t
        = spliceOne (es.foldr (fun e acc => spliceOne acc e) t) e := rfl
      _ = spliceOne (t.take e.end_pos ++ spliceFrom t e.end_pos es) e := by rw [hrec]
      _ = (t.take e.end_pos ++ spliceFrom t e.end_pos es).take e.start_pos ++ effRepl e ++
            (t.take e.end_pos ++ spliceFrom t e.end_pos es).drop e.end_pos := by
            simp [spliceOne, hmk]
      _ = t.take e.start_pos ++ effRepl e ++ spliceFrom t e.end_pos es := by
            have hdrop : (t.take e.end_pos ++ spliceFrom t e.end_pos es).drop e.end_pos =
                spliceFrom t e.end_pos es := by
              have h := List.drop_left (t.take e.end_pos) (spliceFrom t e.end_pos es)
              rwa [htlen] at h
            rw [List.take_append_of_le_length (by rw [htlen]; exact hse),
               List.take_take, min_eq_left hse, hdrop]
      _ = t.take base ++ spliceFrom t base (e :: es) := by
            show _ = t.take base ++ ((t.drop base).take (e.start_pos - base) ++ effRepl e ++
              spliceFrom t e.end_pos es)
            rw [← List.append_assoc, ← List.append_assoc]
            congr 2
            rw [← List.take_add, Nat.add_sub_cancel' hbs]

/-- Claim C1: for every paragraph text and every set of marked entities with
valid, pairwise non-overlapping offsets, the anonymizer splices each entity's
replacement over the original offsets processing entities in descending
`start_pos` order, so the result is correct (equals the ascending-order
specification splice `spliceFrom`) regardless of replacement lengths; in
particular, for `"Alice met Bob"` with `PERSON` entities at `[0,5)` and
`[10,13)` both marked, default replacements yield `"[PERSON] met [PERSON]"`,
and replacements `"X"` / `"ZZZZZZZZ"` yield `"X met ZZZZZZZZ"`. -/
theorem C1_anonymize_right_to_left_correct :
    (∀ (t : List Char) (es asc : List Entity),
      (∀ e ∈ es, e.anonymized = true ∧ e.start_pos < e.end_pos ∧ e.end_pos ≤ t.length) →
      es.Pairwise (fun a b => a.end_pos ≤ b.start_pos ∨ b.end_pos ≤ a.start_pos) →
      es.Perm asc →
      asc.Sorted (fun a b => a.start_pos < b.start_pos) →
      anonymize_text t es = spliceFrom t 0 asc)
    ∧ anonymize_text "Alice met Bob".toList
        [{ text := "Alice".toList, entity_type := "PERSON".toList, start_pos := 0,
           end_pos := 5, anonymized := true },
         { text := "Bob".toList, entity_type := "PERSON".toList, start_pos := 10,
           end_pos := 13, anonymized := true }] = "[PERSON] met [PERSON]".toList
    ∧ anonymize_text "Alice met Bob".toList
        [{ text := "Alice".toList, entity_type := "PERSON".toList, start_pos := 0,
           end_pos := 5, anonymized := true, replacement := "X".toList },
         { text := "Bob".toList, entity_type := "PERSON".toList, start_pos := 10,
           end_pos := 13, anonymized := true, replacement := "ZZZZZZZZ".toList }] =
        "X met ZZZZZZZZ".toList := by
  refine ⟨?_, by decide, by decide⟩
  intro t es asc hval hnov hperm hsort
  have hvalAsc : ∀ e ∈ asc, e.anonymized = true ∧ e.start_pos < e.end_pos ∧
      e.end_pos ≤ t.length := fun e he => hval e (hperm.mem_iff.mpr he)
  -- all starts are distinct: entities are non-degenerate and non-overlapping
  have hne : es.Pairwise (fun a b : Entity => a.start_pos ≠ b.start_pos) := by
    refine hnov.imp_of_mem ?_
    intro a b ha hb hab
    obtain ⟨_, halt, _⟩ := hval a ha
    obtain ⟨_, hblt, _⟩ := hval b hb
    rcases hab with h | h
    · exact Nat.ne_of_lt (lt_of_lt_of_le halt h)
    · exact (Nat.ne_of_lt (lt_of_lt_of_le hblt h)).symm
  have hnesymm : ∀ {x y : Entity}, x.start_pos ≠ y.start_pos → y.start_pos ≠ x.start_pos :=
    fun h => h.symm
  -- the code's stable descending sort equals the reverse of the ascending order
  haveI : IsAntisymm Entity (fun a b : Entity => b.start_pos < a.start_pos) :=
    ⟨fun _ _ h h' => absurd (h.trans h') (lt_irrefl _)⟩
  have hpermIS : (es.insertionSort byStartDesc).Perm es := List.perm_insertionSort byStartDesc es
  have hsIS : List.Sorted (fun a b : Entity => b.start_pos < a.start_pos)
      (es.insertionSort byStartDesc) := by
    have h1 : List.Sorted byStartDesc (es.insertionSort byStartDesc) :=
      List.sorted_insertionSort byStartDesc es
    have h2 : (es.insertionSort byStartDesc).Pairwise
        (fun a b : Entity => a.start_pos ≠ b.start_pos) :=
      (hpermIS.pairwise_iff hnesymm).mpr hne
    exact (h1.and h2).imp fun h => Nat.lt_of_le_of_ne h.1 fun heq => h.2 heq.symm
  have hsrev : List.Sorted (fun a b : Entity => b.start_pos < a.start_pos) asc.reverse :=
    List.pairwise_reverse.mpr hsort
  have heq : es.insertionSort byStartDesc = asc.reverse :=
    List.eq_of_perm_of_sorted
      (hpermIS.trans (hperm.trans (List.reverse_perm asc).symm)) hsIS hsrev
  -- non-overlap in ascending order gives the ascending chain
  have hnovAsc : asc.Pairwise (fun a b => a.end_pos ≤ b.start_pos ∨ b.end_pos ≤ a.start_pos) :=
    (hperm.pairwise_iff (fun h => h.symm)).mp hnov
  have hchain : asc.Pairwise (fun a b => a.end_pos ≤ b.start_pos) := by
    refine (hsort.and hnovAsc).imp_of_mem ?_
    intro a b _ hb h
    rcases h.2 with h' | h'
    · exact h'
    · obtain ⟨_, hblt, _⟩ := hvalAsc b hb
      exact absurd (lt_of_le_of_lt (le_of_lt hblt) (lt_of_le_of_lt h' h.1)) (lt_irrefl _)
  rw [anonymize_text, heq, List.foldl_reverse]
  have := foldr_spliceOne_eq_spliceFrom asc t 0 (Nat.zero_le _)
    (fun e he => by
      obtain ⟨h1, h2, h3⟩ := hvalAsc e he
      exact ⟨h1, Nat.zero_le _, le_of_lt h2, h3⟩) hchain
  simpa using this

/-- Witness for C1: the general statement applied to a concrete one-entity
input. -/
theorem C1_anonymize_right_to_left_correct_witness :
    anonymize_text "abc".toList
      [{ text := "b".toList, entity_type := "PERSON".toList, start_pos := 1,
         end_pos := 2, anonymized := true }] =
    spliceFrom "abc".toList 0
      [{ text := "b".toList, entity_type := "PERSON".toList, start_pos := 1,
         end_pos := 2, anonymized := true }] :=
  C1_anonymize_right_to_left_correct.1 _ _ _
    (by decide) (by decide) (List.Perm.refl _) (List.sorted_singleton _)

/-- Entities whose `anonymized` flag is false are skipped by the splice loop. -/
theorem foldl_spliceOne_unmarked (l : List Entity) :
    ∀ t : List Char, (∀ e ∈ l, e.anonymized = false) → l.foldl spliceOne t = t := by
  induction l with
  | nil => intro t _; rfl
  | cons e es ih =>
    intro t h
    have he := h e (List.mem_cons_self e es)
    have : spliceOne t e = t := by simp [spliceOne, he]
    rw [List.foldl_cons, this]
    exact ih t fun f hf => h f (List.mem_cons_of_mem e hf)

/-- Claim C6: applying the anonymizer with no entity marked anonymized (empty
entity list, or every entity's `anonymized` flag false) returns the paragraph
text unchanged. -/
theorem C6_no_marked_entities_text_unchanged :
    (∀ t : List Char, anonymize_text t [] = t) ∧
    (∀ (t : List Char) (es : List Entity),
      (∀ e ∈ es, e.anonymized = false) → anonymize_text t es = t) := by
  constructor
  · intro t; rfl
  · intro t es h
    rw [anonymize_text]
    exact foldl_spliceOne_unmarked _ t
      fun e he => h e ((List.perm_insertionSort byStartDesc es).mem_iff.mp he)

/-- Witness for C6 at a concrete unmarked entity. -/
theorem C6_no_marked_entities_text_unchanged_witness :
    anonymize_text "Alice met Bob".toList
      [{ text := "Alice".toList, entity_type := "PERSON".toList, start_pos := 0,
         end_pos := 5, anonymized := false }] = "Alice met Bob".toList :=
  C6_no_marked_entities_text_unchanged.2 _ _ (by decide)

/-- Counterexample to claim C2: the anonymizer does not fail on an entity
whose offsets exceed the text's bounds; on text `"abc"` and a marked entity
with offsets `[0,10)` and replacement `"X"` it returns `"X"`, exactly the
output obtained by clamping `end_pos` to the text length. -/
theorem C2_counterexample_out_of_bounds_is_clamped :
    anonymize_text "abc".toList
      [{ text := "abc".toList, entity_type := "PERSON".toList, start_pos := 0,
         end_pos := 10, anonymized := true, replacement := "X".toList }] = "X".toList ∧
    ("abc".toList).length <
      (Entity.mk "abc".toList "PERSON".toList 0 10 true "X".toList none none).end_pos ∧
    anonymize_text "abc".toList
      [{ text := "abc".toList, entity_type := "PERSON".toList, start_pos := 0,
         end_pos := 10, anonymized := true, replacement := "X".toList }] =
    anonymize_text "abc".toList
      [{ text := "abc".toList, entity_type := "PERSON".toList, start_pos := 0,
         end_pos := 3, anonymized := true, replacement := "X".toList }] := by
  decide

/-- Claim C2 as amended: out-of-bounds offsets are not detected; the splice
uses Python slice semantics, which silently clamp an `end_pos` beyond the
text's length, so anonymization never fails for such an entity and produces
the same output as if `end_pos` were clamped to `len(text)`. -/
theorem C2_amended_out_of_bounds_clamps_silently :
    ∀ (t : List Char) (e : Entity), e.anonymized = true → t.length ≤ e.end_pos →
      anonymize_text t [e] = t.take e.start_pos ++ effRepl e ∧
      anonymize_text t [e] = anonymize_text t [{ e with end_pos := t.length }] := by
  intro t e hm hle
  have h1 : anonymize_text t [e] = spliceOne t e := rfl
  have h2 : anonymize_text t [{ e with end_pos := t.length }] =
      spliceOne t { e with end_pos := t.length } := rfl
  constructor
  · rw [h1]
    simp [spliceOne, hm, List.drop_eq_nil_of_le hle]
  · rw [h1, h2]
    simp [spliceOne, hm, effRepl, List.drop_eq_nil_of_le hle, List.drop_length]

/-- Witness for the amended C2 at the concrete out-of-bounds entity. -/
theorem C2_amended_out_of_bounds_clamps_silently_witness :
    anonymize_text "abc".toList
      [{ text := "abc".toList, entity_type := "PERSON".toList, start_pos := 0,
         end_pos := 10, anonymized := true, replacement := "X".toList }] =
      ("abc".toList).take 0 ++
        effRepl { text := "abc".toList, entity_type := "PERSON".toList, start_pos := 0,
                  end_pos := 10, anonymized := true, replacement := "X".toList } ∧
    anonymize_text "abc".toList
      [{ text := "abc".toList, entity_type := "PERSON".toList, start_pos := 0,
         end_pos := 10, anonymized := true, replacement := "X".toList }] =
    anonymize_text "abc".toList
      [{ text := "abc".toList, entity_type := "PERSON".toList, start_pos := 0,
         end_pos := ("abc".toList).length, anonymized := true, replacement := "X".toList }] :=
  C2_amended_out_of_bounds_clamps_silently "abc".toList
    { text := "abc".toList, entity_type := "PERSON".toList, start_pos := 0,
      end_pos := 10, anonymized := true, replacement := "X".toList } (by decide) (by decide)

/-- If the separator occurs nowhere in `s`, `split` keeps `s` in one piece. -/
theorem splitOnSepAux_no_occurrence (sep : List Char) :
    ∀ (s acc : List Char), (∀ q, sep.isPrefixOf (s.drop q) = false) →
      splitOnSepAux sep 0 acc s = [acc.reverse ++ s] := by
  intro s
  induction s with
  | nil =>
    intro acc _
    simp [splitOnSepAux]
  | cons c rest ih =>
    intro acc h
    have h0 := h 0
    simp only [List.drop_zero] at h0
    rw [splitOnSepAux]
    rw [if_neg (by simp [h0])]
    rw [ih (c :: acc) fun q => by have hq := h (q + 1); rwa [List.drop_succ_cons] at hq]
    simp

/-- Counterexample to claim C7: on `"a\nb"` the blank-line strategy yields
the single non-empty unit `"a\nb"`, so the claimed stop-at-first-non-empty
rule would return one paragraph, but the code keys the choice on delimiter
presence and returns the single-line-break split `["a", "b"]`. -/
theorem C7_counterexample_selection_not_by_yield :
    split_into_paragraphs_texts "a\nb".toList = ["a".toList, "b".toList] ∧
    postPass (claimStrategySelect "a\nb".toList) = ["a\nb".toList] ∧
    split_into_paragraphs_texts "a\nb".toList ≠
      postPass (claimStrategySelect "a\nb".toList) := by
  decide

/-- Claim C7 as amended: strategy selection is keyed on the presence of the
delimiter in the raw text, not on whether a strategy yields non-empty units:
a text containing `"\n\n"` always uses the blank-line strategy (even when it
yields zero units), a text with a line break but no blank line always uses
the single-line-break strategy (although the blank-line strategy would have
yielded the whole stripped text as one non-empty unit), and only a text with
no line break uses the sentence split. -/
theorem C7_amended_selection_by_delimiter_presence :
    ∀ c : List Char,
      (containsSub "\n\n".toList c = true →
        split_into_paragraphs_texts c = postPass (strat1 c)) ∧
      (containsSub "\n\n".toList c = false → containsSub "\n".toList c = true →
        split_into_paragraphs_texts c = postPass (strat2 c) ∧
        (pstrip c ≠ [] → strat1 c = [pstrip c])) ∧
      (containsSub "\n\n".toList c = false → containsSub "\n".toList c = false →
        split_into_paragraphs_texts c = postPass (strat3 c)) := by
  intro c
  refine ⟨?_, ?_, ?_⟩
  · intro h1
    rw [split_into_paragraphs_texts, splitStrategies, if_pos h1]
  · intro h1 h2
    have h1' : containsSub ['\n', '\n'] c = false := h1
    constructor
    · rw [split_into_paragraphs_texts, splitStrategies, if_neg (by simp [h1']), if_pos h2]
    · intro hne
      have hnone : pyFind c "\n\n".toList 0 = none := by
        cases hf : pyFind c "\n\n".toList 0 with
        | none => rfl
        | some p => rw [containsSub, hf] at h1; simp at h1
      have hnoocc : ∀ q, ("\n\n".toList).isPrefixOf (c.drop q) = false := by
        intro q
        by_cases hq : q ≤ c.length
        · exact pyFind_none c _ 0 hnone q (Nat.zero_le _) hq
        · rw [List.drop_eq_nil_of_le (by omega)]
          decide
      rw [strat1, splitOnSep, splitOnSepAux_no_occurrence _ _ _ hnoocc]
      simp [stripNonEmpty, hne]
  · intro h1 h2
    have h1' : containsSub ['\n', '\n'] c = false := h1
    have h2' : containsSub ['\n'] c = false := h2
    rw [split_into_paragraphs_texts, splitStrategies, if_neg (by simp [h1']),
       if_neg (by simp [h2'])]

/-- Witness for the amended C7 at the concrete text `"a\nb"`. -/
theorem C7_amended_selection_by_delimiter_presence_witness :
    split_into_paragraphs_texts "a\nb".toList = postPass (strat2 "a\nb".toList) ∧
    strat1 "a\nb".toList = [pstrip "a\nb".toList] := by
  have h := (C7_amended_selection_by_delimiter_presence "a\nb".toList).2.1
    (by decide) (by decide)
  exact ⟨h.1, h.2 (by decide)⟩

theorem occPositionsFrom_eq_nil (hay sub : List Char) (start : Nat)
    (h : pyFind hay sub start = none) :
    occPositionsFrom hay sub start = [] := by
  rw [occPositionsFrom, List.filter_eq_nil_iff]
  intro a ha
  rw [List.mem_range'] at ha
  obtain ⟨j, hj, rfl⟩ := ha
  have hpre := pyFind_none hay sub start h (start + 1 * j) (by omega) (by omega)
  rw [one_mul] at hpre
  simp [hpre]

theorem occPositionsFrom_eq_cons (hay sub : List Char) (start pos : Nat)
    (h : pyFind hay sub start = some pos) :
    occPositionsFrom hay sub start = pos :: occPositionsFrom hay sub (pos + 1) := by
  obtain ⟨h1, h2, h3, h4⟩ := pyFind_some hay sub start pos h
  have hsplit : List.range' start (hay.length + 1 - start) =
      List.range' start (pos - start) ++ List.range' pos (hay.length + 1 - pos) := by
    have happ := List.range'_append start (pos - start) (hay.length + 1 - pos) 1
    rw [one_mul, Nat.add_sub_cancel' h1] at happ
    have harith : hay.length + 1 - start = (hay.length + 1 - pos) + (pos - start) := by omega
    rw [harith, ← happ]
  rw [occPositionsFrom, hsplit, List.filter_append]
  have hfirst : (List.range' start (pos - start)).filter
      (fun p => sub.isPrefixOf (hay.drop p)) = [] := by
    rw [List.filter_eq_nil_iff]
    intro a ha
    rw [List.mem_range'] at ha
    obtain ⟨j, hj, rfl⟩ := ha
    have hpre := h4 (start + 1 * j) (by omega) (by omega)
    rw [one_mul] at hpre
    simp [hpre]
  have hsecond : List.range' pos (hay.length + 1 - pos) =
      pos :: List.range' (pos + 1) (hay.length - pos) := by
    have harith : hay.length + 1 - pos = (hay.length - pos) + 1 := by omega
    rw [harith]
    rfl
  rw [hfirst, List.nil_append, hsecond, List.filter_cons, if_pos h3]
  congr 1
  rw [occPositionsFrom]
  have harith2 : hay.length + 1 - (pos + 1) = hay.length - pos := by omega
  rw [harith2]

/-- Characterization of the per-paragraph bulk-insert loop: starting from an
entity list `old ++ ext` where every `ext` entity attached to paragraph `i`
lies strictly before `start`, the loop appends exactly one entity per
occurrence position `≥ start` that does not conflict with `old`, in ascending
position order, and counts them. -/
theorem bulkScanPara_spec (i : Nat) (ptext term K rep : List Char) (old : List Entity) :
    ∀ (fuel : Nat), ∀ (start : Nat) (ext : List Entity) (created : Nat),
      (lowerL ptext).length + 2 ≤ fuel + start →
      (∀ x ∈ ext, x.paragraph_id = some i → x.start_pos < start) →
      bulkScanPara i ptext term K rep fuel start (old ++ ext, created) =
        (old ++ ext ++
          (((occPositionsFrom (lowerL ptext) (lowerL term) start).filter fun pos =>
            !(old.any (bulkConflict i pos))).map (mkBulkEntity i ptext term K rep)),
         created +
          (((occPositionsFrom (lowerL ptext) (lowerL term) start).filter fun pos =>
            !(old.any (bulkConflict i pos))).map (mkBulkEntity i ptext term K rep)).length) := by
  intro fuel
  induction fuel with
  | zero =>
    intro start ext created hfuel _
    have hnil : occPositionsFrom (lowerL ptext) (lowerL term) start = [] := by
      rw [occPositionsFrom]
      have : (lowerL ptext).length + 1 - start = 0 := by omega
      rw [this]
      rfl
    rw [bulkScanPara, hnil]
    simp
  | succ fuel ih =>
    intro start ext created hfuel hext
    rw [bulkScanPara]
    cases hfind : pyFind (lowerL ptext) (lowerL term) start with
    | none =>
      rw [occPositionsFrom_eq_nil _ _ _ hfind]
      simp
    | some pos =>
      obtain ⟨hsp, hpl, _, _⟩ := pyFind_some _ _ _ _ hfind
      rw [occPositionsFrom_eq_cons _ _ _ _ hfind]
      have hanyext : (ext.any (bulkConflict i pos)) = false := by
        rw [List.any_eq_false]
        intro x hx
        rw [bulkConflict]
        simp only [decide_eq_true_eq, not_and]
        intro hpid hstart
        have := hext x hx hpid
        omega
      have hany : ((old ++ ext).any fun x =>
          decide (x.paragraph_id = some i ∧ x.start_pos = pos)) =
          (old.any (bulkConflict i pos)) := by
        have : (fun x => decide (x.paragraph_id = some i ∧ x.start_pos = pos)) =
            bulkConflict i pos := by
          funext x
          rw [bulkConflict]
        rw [this, List.any_append, hanyext, Bool.or_false]
      dsimp only
      rw [hany]
      by_cases hc : (old.any (bulkConflict i pos)) = true
      · rw [if_pos hc, List.filter_cons, if_neg (by simp [hc])]
        exact ih (pos + 1) ext created (by omega)
          (fun x hx hpid => Nat.lt_of_lt_of_le (hext x hx hpid) (by omega))
      · have hcf : (old.any (bulkConflict i pos)) = false := by
          cases hval : (old.any (bulkConflict i pos)) with
          | true => exact absurd hval hc
          | false => rfl
        rw [if_neg hc, List.filter_cons, if_pos (by simp [hcf])]
        have hassoc : old ++ ext ++ [mkBulkEntity i ptext term K rep pos] =
            old ++ (ext ++ [mkBulkEntity i ptext term K rep pos]) := by
          rw [List.append_assoc]
        rw [hassoc]
        have hext' : ∀ x ∈ ext ++ [mkBulkEntity i ptext term K rep pos],
            x.paragraph_id = some i → x.start_pos < pos + 1 := by
          intro x hx hpid
          rcases List.mem_append.mp hx with hx | hx
          · exact Nat.lt_of_lt_of_le (hext x hx hpid) (by omega)
          · rcases List.mem_singleton.mp hx with rfl
            simp [mkBulkEntity]
        rw [ih (pos + 1) (ext ++ [mkBulkEntity i ptext term K rep pos]) (created + 1)
          (by omega) hext']
        rw [List.map_cons]
        simp only [Prod.mk.injEq]
        constructor
        · simp [List.append_assoc]
        · simp
          omega

theorem occPositions_eq_from_zero (hay sub : List Char) :
    occPositions hay sub = occPositionsFrom hay sub 0 := by
  rw [occPositions, occPositionsFrom, List.range_eq_range', Nat.sub_zero]

/-- Characterization of the bulk insert's paragraph loop: every entity of
`ext` is attached to a paragraph before `i`, so the loop appends exactly the
specified per-paragraph creation lists, conflicts judged against `old`. -/
theorem bulkLoopParas_spec (term K rep : List Char) (old : List Entity) :
    ∀ (ps : List Paragraph) (i : Nat) (ext : List Entity) (created : Nat),
      (∀ x ∈ ext, ∀ j, x.paragraph_id = some j → j < i) →
      bulkLoopParas term K rep i ps (old ++ ext, created) =
        (old ++ ext ++ bulkExpectedFrom old term K rep i ps,
         created + (bulkExpectedFrom old term K rep i ps).length) := by
  intro ps
  induction ps with
  | nil =>
    intro i ext created _
    rw [bulkLoopParas, bulkExpectedFrom]
    simp
  | cons p ps ih =>
    intro i ext created hext
    rw [bulkLoopParas]
    have hscan := bulkScanPara_spec i p.text term K rep old (p.text.length + 2) 0 ext created
      (by simp [lowerL]) (fun x hx hpid => absurd (hext x hx i hpid) (lt_irrefl i))
    rw [hscan]
    have hpara : bulkExpectedForPara old i p.text term K rep =
        ((occPositionsFrom (lowerL p.text) (lowerL term) 0).filter fun pos =>
          !(old.any (bulkConflict i pos))).map (mkBulkEntity i p.text term K rep) := by
      rw [bulkExpectedForPara, occPositions_eq_from_zero]
    have hassoc : old ++ ext ++
        ((occPositionsFrom (lowerL p.text) (lowerL term) 0).filter fun pos =>
          !(old.any (bulkConflict i pos))).map (mkBulkEntity i p.text term K rep) =
        old ++ (ext ++ bulkExpectedForPara old i p.text term K rep) := by
      rw [hpara, List.append_assoc]
    rw [hassoc]
    have hext' : ∀ x ∈ ext ++ bulkExpectedForPara old i p.text term K rep,
        ∀ j, x.paragraph_id = some j → j < i + 1 := by
      intro x hx j hpid
      rcases List.mem_append.mp hx with hx | hx
      · exact Nat.lt_succ_of_lt (hext x hx j hpid)
      · rw [bulkExpectedForPara] at hx
        obtain ⟨pos, _, rfl⟩ := List.mem_map.mp hx
        rw [mkBulkEntity] at hpid
        simp at hpid
        omega
    rw [ih (i + 1) (ext ++ bulkExpectedForPara old i p.text term K rep) _ hext']
    rw [bulkExpectedFrom]
    simp only [Prod.mk.injEq]
    constructor
    · simp [List.append_assoc]
    · simp [hpara]
      omega

/-- Claim C4: a bulk insert of literal text `T` (here: non-blank, and passing
the global duplicate-by-text pre-filter, which otherwise aborts the path —
see C5) creates an entity at exactly every position where `T` occurs
case-insensitively in a paragraph — the left-to-right scan resuming at
`match_start + 1` finds every overlapping occurrence — except positions where
an existing entity already has the identical `(paragraph, start_pos)` pair;
when no entity at all was created, the single general entity is appended
instead. -/
theorem C4_bulk_insert_creates_exactly_occurrence_positions :
    ∀ (st : AppState) (raw K rep : List Char),
      pstrip raw ≠ [] →
      (∀ e ∈ st.entities, lowerL e.text ≠ lowerL (pstrip raw)) →
      (add_entity_without_search st raw K rep).1.entities =
        (if bulkExpectedFrom st.entities (pstrip raw) K rep 0 st.paragraphs = []
         then st.entities ++ [generalEntity (pstrip raw) K rep]
         else st.entities ++ bulkExpectedFrom st.entities (pstrip raw) K rep 0 st.paragraphs) ∧
      (add_entity_without_search st raw K rep).2 =
        (if bulkExpectedFrom st.entities (pstrip raw) K rep 0 st.paragraphs = []
         then BulkOutcome.generalAdded
         else BulkOutcome.added
           (bulkExpectedFrom st.entities (pstrip raw) K rep 0 st.paragraphs).length) := by
  intro st raw K rep hne hdup
  have hdupb : (st.entities.any fun e => decide (lowerL e.text = lowerL (pstrip raw))) = false := by
    rw [List.any_eq_false]
    intro x hx
    simp [hdup x hx]
  have hloop := bulkLoopParas_spec (pstrip raw) K rep st.entities st.paragraphs 0 [] 0
    (fun x hx => absurd hx (List.not_mem_nil x))
  rw [List.append_nil, Nat.zero_add] at hloop
  rw [add_entity_without_search, if_neg hne]
  rw [if_neg (by simp [hdupb])]
  dsimp only
  rw [hloop]
  by_cases hE : bulkExpectedFrom st.entities (pstrip raw) K rep 0 st.paragraphs = []
  · rw [if_pos hE, if_pos hE, hE]
    dsimp only
    rw [if_pos List.length_nil]
    exact ⟨by simp, rfl⟩
  · rw [if_neg hE, if_neg hE]
    dsimp only
    rw [if_neg (by simpa [List.length_eq_zero] using hE)]
    exact ⟨rfl, rfl⟩

/-- Witness for C4: inserting `"the"` into `"The cat and the the dog"` creates
entities at exactly the case-insensitive occurrence positions 0, 12 and 16. -/
theorem C4_bulk_insert_creates_exactly_occurrence_positions_witness :
    (add_entity_without_search
      { paragraphs := [{ id := 0, text := "The cat and the the dog".toList }],
        entities := [] } "the".toList "PERSON".toList []).1.entities.map
        (fun e => (e.paragraph_id, e.start_pos, e.end_pos, e.text)) =
      [(some 0, 0, 3, "The".toList), (some 0, 12, 15, "the".toList),
       (some 0, 16, 19, "the".toList)] ∧
    (add_entity_without_search
      { paragraphs := [{ id := 0, text := "The cat and the the dog".toList }],
        entities := [] } "the".toList "PERSON".toList []).1.entities =
      (if bulkExpectedFrom [] "the".toList "PERSON".toList [] 0
            [{ id := 0, text := "The cat and the the dog".toList }] = []
       then [] ++ [generalEntity "the".toList "PERSON".toList []]
       else [] ++ bulkExpectedFrom [] "the".toList "PERSON".toList [] 0
            [{ id := 0, text := "The cat and the the dog".toList }]) := by
  constructor
  · decide
  · have h := C4_bulk_insert_creates_exactly_occurrence_positions
      { paragraphs := [{ id := 0, text := "The cat and the the dog".toList }],
        entities := [] } "the".toList "PERSON".toList [] (by decide)
      (fun e he => absurd he (List.not_mem_nil e))
    have hps : pstrip "the".toList = "the".toList := by decide
    rw [hps] at h
    exact h.1

/-- Counterexample to claim C5: with an entity of text `"Bob"` already present
(attached to paragraph 0), the single manual insert of `"Bob"` into paragraph
1 is not skipped: no duplicate-by-text check runs on this path, a second
entity with the same text is created, and no "already exists" outcome is
signalled. -/
theorem C5_counterexample_single_insert_has_no_text_prefilter :
    (AppState.mk [{ id := 0, text := "Bob ok".toList }, { id := 1, text := "hi Bob".toList }]
      [{ text := "Bob".toList, entity_type := "PERSON".toList, start_pos := 0,
         end_pos := 3, paragraph_id := some 0 }] []).entities.any
      (fun e => decide (lowerL e.text = lowerL "Bob".toList)) = true ∧
    (create_entity_from_match
      (AppState.mk [{ id := 0, text := "Bob ok".toList }, { id := 1, text := "hi Bob".toList }]
        [{ text := "Bob".toList, entity_type := "PERSON".toList, start_pos := 0,
           end_pos := 3, paragraph_id := some 0 }] [])
      "Bob".toList "PERSON".toList [] 1).2 = MatchOutcome.added ∧
    (create_entity_from_match
      (AppState.mk [{ id := 0, text := "Bob ok".toList }, { id := 1, text := "hi Bob".toList }]
        [{ text := "Bob".toList, entity_type := "PERSON".toList, start_pos := 0,
           end_pos := 3, paragraph_id := some 0 }] [])
      "Bob".toList "PERSON".toList [] 1).1.entities.length = 2 := by
  decide

/-- Claim C5 as amended: the whole-collection duplicate-by-text
(case-insensitive) pre-filter guards only the bulk insert path
(`_add_entity_without_search`), where it runs before the occurrence scan and
signals "already exists"; the single manual insert from a chosen search
result (`_create_entity_from_match`) performs no duplicate-by-text check and
rejects only when the target paragraph already has an entity. -/
theorem C5_amended_text_prefilter_only_on_bulk_path :
    ∀ (st : AppState) (raw K rep : List Char),
      pstrip raw ≠ [] →
      (st.entities.any fun e => decide (lowerL e.text = lowerL (pstrip raw))) = true →
      add_entity_without_search st raw K rep = (st, BulkOutcome.duplicateText) := by
  intro st raw K rep hne hdup
  rw [add_entity_without_search, if_neg hne, if_pos hdup]

/-- Witness for the amended C5 at a concrete duplicate. -/
theorem C5_amended_text_prefilter_only_on_bulk_path_witness :
    add_entity_without_search
      (AppState.mk [{ id := 0, text := "Bob ok".toList }]
        [{ text := "bob".toList, entity_type := "PERSON".toList, start_pos := 0,
           end_pos := 3, paragraph_id := some 0 }] [])
      "Bob".toList "PERSON".toList [] =
    ((AppState.mk [{ id := 0, text := "Bob ok".toList }]
        [{ text := "bob".toList, entity_type := "PERSON".toList, start_pos := 0,
           end_pos := 3, paragraph_id := some 0 }] []), BulkOutcome.duplicateText) :=
  C5_amended_text_prefilter_only_on_bulk_path _ _ _ _ (by decide) (by decide)

/-- Claim C9: the single manual insert from a chosen search result is
rejected (state unchanged) whenever the target paragraph already has any
entity, regardless of that entity's text or position; otherwise the new
entity is inserted at the resolved offset of the first case-insensitive
occurrence of the literal text in that paragraph's current text. -/
theorem C9_single_insert_blocked_by_any_entity_else_first_occurrence :
    ∀ (st : AppState) (term K rep : List Char) (pid : Nat), pid < st.paragraphs.length →
      ((st.entities.any fun en => decide (en.paragraph_id = some pid)) = true →
        (create_entity_from_match st term K rep pid).1 = st) ∧
      ((st.entities.any fun en => decide (en.paragraph_id = some pid)) = false →
        ∀ s, pyFind (lowerL (st.paragraphs.getD pid default).text) (lowerL term) 0 = some s →
          (create_entity_from_match st term K rep pid).1 =
            { st with entities := st.entities ++
                [{ text := ((st.paragraphs.getD pid default).text.drop s).take term.length,
                   entity_type := K, start_pos := s,
                   end_pos := s +
                     (((st.paragraphs.getD pid default).text.drop s).take term.length).length,
                   anonymized := false, replacement := manualRepl rep K,
                   paragraph_id := some pid, auto_detected := some false }] } ∧
          (∀ q, q < s →
            (lowerL term).isPrefixOf
              ((lowerL (st.paragraphs.getD pid default).text).drop q) = false)) := by
  intro st term K rep pid _
  constructor
  · intro hocc
    rw [create_entity_from_match]
    cases hfind : pyFind (lowerL (st.paragraphs.getD pid default).text) (lowerL term) 0 with
    | none => rfl
    | some s =>
      dsimp only
      rw [if_pos hocc]
  · intro hocc s hfind
    rw [create_entity_from_match, hfind]
    dsimp only
    rw [if_neg (by simp [hocc])]
    refine ⟨rfl, ?_⟩
    intro q hq
    exact (pyFind_some _ _ _ _ hfind).2.2.2 q (Nat.zero_le q) hq

/-- Witness for C9: both branches at concrete states. -/
theorem C9_single_insert_blocked_by_any_entity_else_first_occurrence_witness :
    (create_entity_from_match
      (AppState.mk [{ id := 0, text := "hi Bob".toList }]
        [{ text := "x".toList, entity_type := "PERSON".toList, start_pos := 0,
           end_pos := 1, paragraph_id := some 0 }] [])
      "Bob".toList "PERSON".toList [] 0).1 =
    AppState.mk [{ id := 0, text := "hi Bob".toList }]
      [{ text := "x".toList, entity_type := "PERSON".toList, start_pos := 0,
         end_pos := 1, paragraph_id := some 0 }] [] :=
  (C9_single_insert_blocked_by_any_entity_else_first_occurrence
    (AppState.mk [{ id := 0, text := "hi Bob".toList }]
      [{ text := "x".toList, entity_type := "PERSON".toList, start_pos := 0,
         end_pos := 1, paragraph_id := some 0 }] [])
    "Bob".toList "PERSON".toList [] 0 (by decide)).1 (by decide)

/-- The paragraph texts produced by `_apply_anonymization`: each paragraph is
rewritten with the marked entities that carry its id (the early-return cases
coincide with this description because an empty per-paragraph entity set
leaves the text untouched). -/
theorem apply_anonymization_texts (st : AppState) :
    (apply_anonymization st).paragraphs.map Paragraph.text =
      st.paragraphs.map fun p =>
        if ((st.entities.filter (·.anonymized)).filter
            fun x => decide (x.paragraph_id = some p.id)) = [] then p.text
        else anonymize_text p.text
          ((st.entities.filter (·.anonymized)).filter
            fun x => decide (x.paragraph_id = some p.id)) := by
  rw [apply_anonymization]
  by_cases h1 : st.entities = []
  · rw [if_pos h1, h1]
    simp
  · rw [if_neg h1]
    by_cases h2 : st.entities.filter (·.anonymized) = []
    · rw [if_pos h2, h2]
      simp
    · rw [if_neg h2]
      dsimp only
      rw [List.map_map]
      refine List.map_congr_left ?_
      intro p _
      simp only [Function.comp_apply]
      by_cases hp : ((st.entities.filter (·.anonymized)).filter
          fun x => decide (x.paragraph_id = some p.id)) = []
      · rw [if_pos hp, if_pos hp]
      · rw [if_neg hp, if_neg hp]

/-- Claim C10: an entity with no paragraph association (such as the general
entity created when a manually entered text occurs in no paragraph) is
excluded from every paragraph's replacement set by the apply-anonymization
pass, so adding it — marked or not — never changes any paragraph's text. -/
theorem C10_paragraphless_entity_never_changes_text :
    ∀ (st : AppState) (e : Entity), e.paragraph_id = none →
      (apply_anonymization
        { st with entities := st.entities ++ [e] }).paragraphs.map Paragraph.text =
      (apply_anonymization st).paragraphs.map Paragraph.text := by
  intro st e hpid
  rw [apply_anonymization_texts, apply_anonymization_texts]
  dsimp only
  refine List.map_congr_left ?_
  intro p _
  have hfilters : (((st.entities ++ [e]).filter (·.anonymized)).filter
      fun x => decide (x.paragraph_id = some p.id)) =
      ((st.entities.filter (·.anonymized)).filter
      fun x => decide (x.paragraph_id = some p.id)) := by
    rw [List.filter_append, List.filter_append]
    have : (([e].filter (·.anonymized)).filter
        fun x => decide (x.paragraph_id = some p.id)) = [] := by
      cases he : e.anonymized with
      | false => simp [List.filter, he]
      | true => simp [List.filter, he, hpid]
    rw [this, List.append_nil]
  rw [hfilters]

/-- Witness for C10: a marked general entity added to a one-paragraph state
leaves the paragraph text unchanged. -/
theorem C10_paragraphless_entity_never_changes_text_witness :
    (apply_anonymization
      { paragraphs := [{ id := 0, text := "hi Bob".toList }],
        entities := [] ++ [{ text := "Bob".toList, entity_type := "PERSON".toList,
                             start_pos := 0, end_pos := 3, anonymized := true,
                             replacement := "[PERSON]".toList }],
        current_transcript := [] }).paragraphs.map Paragraph.text =
    (apply_anonymization
      { paragraphs := [{ id := 0, text := "hi Bob".toList }],
        entities := [], current_transcript := [] }).paragraphs.map Paragraph.text :=
  C10_paragraphless_entity_never_changes_text
    { paragraphs := [{ id := 0, text := "hi Bob".toList }],
      entities := [], current_transcript := [] }
    { text := "Bob".toList, entity_type := "PERSON".toList,
      start_pos := 0, end_pos := 3, anonymized := true,
      replacement := "[PERSON]".toList } (by decide)

/-- Claim C8: when the recognizer capability is unavailable (`None` pipeline)
or raises, `extract_entities` returns exactly the regex fallback's result on
the identical input — and, being a total function, never raises. -/
theorem C8_unavailable_or_raising_recognizer_falls_back_to_regex :
    (∀ t : List Char, extract_entities none t = extract_entities_regex t) ∧
    (∀ (f : List Char → Except (List Char) (List RawEnt)) (t msg : List Char),
      f t = Except.error msg → extract_entities (some f) t = extract_entities_regex t) := by
  constructor
  · intro t
    rfl
  · intro f t msg hf
    rw [extract_entities, hf]

/-- Witness for C8: a concrete always-raising capability. -/
theorem C8_unavailable_or_raising_recognizer_falls_back_to_regex_witness :
    extract_entities (some fun _ => Except.error "cuda error".toList) "Alice met Bob".toList =
      extract_entities_regex "Alice met Bob".toList :=
  C8_unavailable_or_raising_recognizer_falls_back_to_regex.2
    (fun _ => Except.error "cuda error".toList) "Alice met Bob".toList "cuda error".toList rfl

theorem runLen_le (φ : Char → Bool) (cs : List Char) (p : Nat) :
    runLen φ cs p ≤ cs.length - p := by
  rw [runLen]
  calc ((cs.drop p).takeWhile φ).length ≤ (cs.drop p).length :=
        (List.takeWhile_sublist φ).length_le
    _ = cs.length - p := List.length_drop p cs

theorem get?_some_lt {cs : List Char} {p : Nat} {c : Char} (h : cs.get? p = some c) :
    p < cs.length := by
  obtain ⟨h1, _⟩ := List.get?_eq_some.mp h
  exact h1

theorem owc_get?_lt {cs : List Char} {p : Nat} (h : owc (cs.get? p) = true) :
    p < cs.length := by
  cases hg : cs.get? p with
  | none => rw [hg, owc] at h; exact absurd h (by simp)
  | some c => exact get?_some_lt hg

theorem personGroups_le (cs : List Char) :
    ∀ (fuel e : Nat), e ≤ cs.length → personGroups cs fuel e ≤ cs.length := by
  intro fuel
  induction fuel with
  | zero => intro e he; exact he
  | succ fuel ih =>
    intro e he
    rw [personGroups]
    split
    · exact he
    · have h1 := runLen_le isPySpace cs e
      have h2 := runLen_le Char.isAlpha cs (e + runLen isPySpace cs e)
      exact ih _ (by omega)

theorem personMatch_le {prev : Option Char} {cs : List Char} {k : Nat}
    (h : personMatch prev cs = some k) : k ≤ cs.length := by
  simp only [personMatch] at h
  split_ifs at h <;> simp at h
  have hr := runLen_le Char.isAlpha cs 0
  have hg := personGroups_le cs cs.length (runLen Char.isAlpha cs 0) (by omega)
  omega

theorem dateTailA_le {cs : List Char} {q k : Nat} (h : dateTailA cs q = some k) :
    k ≤ cs.length := by
  rw [dateTailA] at h
  split_ifs at h with hc <;> simp at h
  simp only [Bool.and_eq_true, decide_eq_true_eq] at hc
  have hrl := runLen_le Char.isDigit cs q
  have hdd : digitRun cs q = runLen Char.isDigit cs q := rfl
  omega

theorem dateTailB_le {cs : List Char} {q k : Nat} (h : dateTailB cs q = some k) :
    k ≤ cs.length := by
  rw [dateTailB] at h
  split_ifs at h with hc <;> simp at h
  simp only [Bool.and_eq_true, decide_eq_true_eq] at hc
  have hrl := runLen_le Char.isDigit cs q
  have hdd : digitRun cs q = runLen Char.isDigit cs q := rfl
  omega

theorem dateTailC_le {cs : List Char} {q k : Nat} (h : dateTailC cs q = some k) :
    k ≤ cs.length := by
  rw [dateTailC] at h
  split_ifs at h with hc <;> simp at h
  simp only [Bool.and_eq_true, decide_eq_true_eq] at hc
  have hrl := runLen_le Char.isDigit cs q
  have hdd : digitRun cs q = runLen Char.isDigit cs q := rfl
  omega

theorem dateAltA_le {cs : List Char} {k : Nat} (h : dateAltA cs = some k) :
    k ≤ cs.length := by
  simp only [dateAltA] at h
  split_ifs at h
  all_goals first
    | exact absurd h (by simp)
    | exact dateTailA_le h

theorem dateAltB_le {cs : List Char} {k : Nat} (h : dateAltB cs = some k) :
    k ≤ cs.length := by
  simp only [dateAltB] at h
  split_ifs at h
  all_goals first
    | exact absurd h (by simp)
    | exact dateTailB_le h

theorem dateAltC_le {cs : List Char} {k : Nat} (h : dateAltC cs = some k) :
    k ≤ cs.length := by
  simp only [dateAltC] at h
  split_ifs at h
  all_goals first
    | exact absurd h (by simp)
    | exact dateTailC_le h

theorem dateMatch_le {prev : Option Char} {cs : List Char} {k : Nat}
    (h : dateMatch prev cs = some k) : k ≤ cs.length := by
  rw [dateMatch] at h
  split_ifs at h
  cases hA : dateAltA cs with
  | some j =>
    rw [hA] at h
    simp only [Option.some.injEq] at h
    subst h
    exact dateAltA_le hA
  | none =>
    rw [hA] at h
    cases hB : dateAltB cs with
    | some j =>
      rw [hB] at h
      simp only [Option.some.injEq] at h
      subst h
      exact dateAltB_le hB
    | none =>
      rw [hB] at h
      exact dateAltC_le h

theorem timeTail_le {cs : List Char} {e k : Nat} (he : e ≤ cs.length)
    (h : timeTail cs e = some k) : k ≤ cs.length := by
  simp only [timeTail] at h
  split_ifs at h with h1 h2 <;> simp at h
  · simp only [Bool.and_eq_true] at h1
    have hm := h1.1.2
    rw [ampmSecond] at hm
    have hsome : ∃ c, cs.get? (e + runLen isPySpace cs e + 1) = some c := by
      rcases Bool.or_eq_true_iff.mp hm with hm' | hm'
      · exact ⟨'m', of_decide_eq_true hm'⟩
      · exact ⟨'M', of_decide_eq_true hm'⟩
    obtain ⟨c, hc⟩ := hsome
    have := get?_some_lt hc
    omega
  · omega

theorem timeAfterColon_le {cs : List Char} {p k : Nat}
    (h : timeAfterColon cs p = some k) : k ≤ cs.length := by
  rw [timeAfterColon] at h
  split_ifs at h with h1 h2
  · rw [Bool.and_eq_true] at h2
    have h2b := of_decide_eq_true h2.2
    have hrl := runLen_le Char.isDigit cs (p + 3)
    have hdd : digitRun cs (p + 3) = runLen Char.isDigit cs (p + 3) := rfl
    have hb1 : p + 5 ≤ cs.length := by omega
    cases hs : timeTail cs (p + 5) with
    | some j =>
      rw [hs] at h
      simp only [Option.some.injEq] at h
      subst h
      exact timeTail_le hb1 hs
    | none =>
      rw [hs] at h
      exact timeTail_le (by omega) h
  · have hrl := runLen_le Char.isDigit cs p
    have hdd : digitRun cs p = runLen Char.isDigit cs p := rfl
    exact timeTail_le (by omega) h

theorem timeMatch_le {prev : Option Char} {cs : List Char} {k : Nat}
    (h : timeMatch prev cs = some k) : k ≤ cs.length := by
  simp only [timeMatch] at h
  split_ifs at h
  all_goals first
    | exact absurd h (by simp)
    | exact timeAfterColon_le h

theorem phoneTail_le {cs : List Char} {p k : Nat} (h : phoneTail cs p = some k) :
    k ≤ cs.length := by
  rw [phoneTail] at h
  split_ifs at h with h1 h2 <;> simp at h
  have hrl := runLen_le Char.isDigit cs p
  have hdd : digitRun cs p = runLen Char.isDigit cs p := rfl
  omega

theorem phoneCore_le {cs : List Char} {p0 k : Nat} (h : phoneCore cs p0 = some k) :
    k ≤ cs.length := by
  simp only [phoneCore] at h
  split_ifs at h
  all_goals first
    | exact absurd h (by simp)
    | exact phoneTail_le h

theorem phoneWithLead_le {cs : List Char} {q k : Nat} (h : phoneWithLead cs q = some k) :
    k ≤ cs.length := by
  rw [phoneWithLead] at h
  cases hc : phoneCore cs (if phoneSepAt cs q then q + 1 else q) with
  | some j =>
    rw [hc] at h
    simp only [Option.some.injEq] at h
    subst h
    exact phoneCore_le hc
  | none =>
    rw [hc] at h
    exact phoneCore_le h

theorem phoneMatch_le {prev : Option Char} {cs : List Char} {k : Nat}
    (h : phoneMatch prev cs = some k) : k ≤ cs.length := by
  rw [phoneMatch] at h
  split_ifs at h
  all_goals first
    | exact absurd h (by simp)
    | exact phoneWithLead_le h
    | exact phoneCore_le h

theorem tldScan_le (cs : List Char) (t0 : Nat) :
    ∀ (r k : Nat), tldScan cs t0 r = some k → k ≤ cs.length := by
  intro r
  induction r with
  | zero => intro k h; rw [tldScan] at h; exact absurd h (by simp)
  | succ n ih =>
    intro k h
    rw [tldScan] at h
    split_ifs at h with h1 h2
    · simp only [Option.some.injEq] at h
      subst h
      cases hb : owc (cs.get? (t0 + n)) with
      | true =>
        have := owc_get?_lt hb
        omega
      | false =>
        have hb2 : owc (cs.get? (t0 + n + 1)) = true := by
          rw [hb] at h2
          cases hx : owc (cs.get? (t0 + n + 1)) with
          | false => rw [hx] at h2; simp at h2
          | true => rfl
        have := owc_get?_lt hb2
        omega
    · exact ih k h

theorem emailDomScan_le (cs : List Char) (d0 : Nat) :
    ∀ (n k : Nat), emailDomScan cs d0 n = some k → k ≤ cs.length := by
  intro n
  induction n with
  | zero => intro k h; rw [emailDomScan] at h; exact absurd h (by simp)
  | succ n ih =>
    intro k h
    rw [emailDomScan] at h
    split_ifs at h with h1
    · cases ht : tldScan cs (d0 + n + 2) (runLen tldChar cs (d0 + n + 2)) with
      | some j =>
        rw [ht] at h
        simp only [Option.some.injEq] at h
        subst h
        exact tldScan_le cs _ _ _ ht
      | none =>
        rw [ht] at h
        exact ih k h
    · exact ih k h

theorem emailMatch_le {prev : Option Char} {cs : List Char} {k : Nat}
    (h : emailMatch prev cs = some k) : k ≤ cs.length := by
  simp only [emailMatch] at h
  split_ifs at h
  all_goals first
    | exact absurd h (by simp)
    | exact emailDomScan_le cs _ _ _ h

theorem moneyGroups_le (cs : List Char) :
    ∀ (fuel p : Nat), p ≤ cs.length → moneyGroups cs fuel p ≤ cs.length := by
  intro fuel
  induction fuel with
  | zero => intro p hp; exact hp
  | succ fuel ih =>
    intro p hp
    rw [moneyGroups]
    split_ifs with hc
    · simp only [Bool.and_eq_true, decide_eq_true_eq] at hc
      have hrl := runLen_le Char.isDigit cs (p + 1)
      have hdd : digitRun cs (p + 1) = runLen Char.isDigit cs (p + 1) := rfl
      exact ih _ (by omega)
    · exact hp

theorem moneyMatch_le {prev : Option Char} {cs : List Char} {k : Nat}
    (h : moneyMatch prev cs = some k) : k ≤ cs.length := by
  simp only [moneyMatch] at h
  split_ifs at h with h1 h2 h3 <;> simp at h
  · simp only [Bool.and_eq_true, decide_eq_true_eq] at h3
    have hrl := runLen_le Char.isDigit cs (moneyGroups cs cs.length (1 + digitRun cs 1) + 1)
    have hdd : digitRun cs (moneyGroups cs cs.length (1 + digitRun cs 1) + 1) =
        runLen Char.isDigit cs (moneyGroups cs cs.length (1 + digitRun cs 1) + 1) := rfl
    omega
  · simp only [Bool.not_eq_true', decide_eq_false_iff_not, not_not] at h1
    have h0 : (0 : Nat) < cs.length := get?_some_lt h1
    have hr := runLen_le Char.isDigit cs 1
    have hdd : digitRun cs 1 = runLen Char.isDigit cs 1 := rfl
    have := moneyGroups_le cs cs.length (1 + digitRun cs 1) (by omega)
    omega

theorem percentMatch_le {prev : Option Char} {cs : List Char} {k : Nat}
    (h : percentMatch prev cs = some k) : k ≤ cs.length := by
  simp only [percentMatch] at h
  split_ifs at h with h1 h2 h3 h4 <;> simp at h
  · have := get?_some_lt h3
    omega
  · have := get?_some_lt h4
    omega

/-- Every span the finditer scanner emits comes from a successful matcher run
at its start position, inside the text. -/
theorem scanFrom_sound (m : Option Char → List Char → Option Nat) (t : List Char) :
    ∀ (fuel i : Nat) (se : Nat × Nat), se ∈ scanFrom m t fuel i →
      se.1 < t.length ∧
      ∃ k, m (if se.1 = 0 then none else t.get? (se.1 - 1)) (t.drop se.1) = some k ∧
        se.2 = se.1 + k := by
  intro fuel
  induction fuel with
  | zero =>
    intro i se h
    rw [scanFrom] at h
    exact absurd h (List.not_mem_nil se)
  | succ fuel ih =>
    intro i se h
    rw [scanFrom] at h
    by_cases h1 : t.length ≤ i
    · rw [if_pos h1] at h
      exact absurd h (List.not_mem_nil se)
    · rw [if_neg h1] at h
      cases hm : m (if i = 0 then none else t.get? (i - 1)) (t.drop i) with
      | none =>
        rw [hm] at h
        exact ih _ se h
      | some k =>
        rw [hm] at h
        rcases List.mem_cons.mp h with rfl | h'
        · exact ⟨by omega, k, by simpa using hm, rfl⟩
        · exact ih _ se h'

/-- Every matcher of the pattern table reports a length within its input. -/
theorem patterns_matcher_le :
    ∀ pm ∈ patternsList, ∀ (prev : Option Char) (cs : List Char) (k : Nat),
      pm.2 prev cs = some k → k ≤ cs.length := by
  intro pm hpm
  simp only [patternsList, List.mem_cons, List.not_mem_nil, or_false] at hpm
  rcases hpm with rfl | rfl | rfl | rfl | rfl | rfl | rfl
  · exact fun prev cs k h => @personMatch_le prev cs k h
  · exact fun prev cs k h => @dateMatch_le prev cs k h
  · exact fun prev cs k h => @timeMatch_le prev cs k h
  · exact fun prev cs k h => @phoneMatch_le prev cs k h
  · exact fun prev cs k h => @emailMatch_le prev cs k h
  · exact fun prev cs k h => @moneyMatch_le prev cs k h
  · exact fun prev cs k h => @percentMatch_le prev cs k h

theorem take_length_take (l : List Char) (n : Nat) :
    l.take ((l.take n).length) = l.take n := by
  rw [List.length_take]
  rcases Nat.le_total n l.length with h | h
  · rw [min_eq_left h]
  · rw [min_eq_right h, List.take_length, List.take_of_length_le h]

/-- A bulk-created entity is offset-valid for its paragraph text. -/
theorem mkBulkEntity_valid (i : Nat) (ptext term K rep : List Char) (pos : Nat)
    (h : pos ≤ ptext.length) :
    entityValidFor ptext (mkBulkEntity i ptext term K rep pos) := by
  rw [entityValidFor, mkBulkEntity]
  refine ⟨by simp, ?_, ?_⟩
  · simp only [List.length_take, List.length_drop]
    omega
  · simp only [Nat.add_sub_cancel_left]
    exact take_length_take (ptext.drop pos) term.length

theorem mem_bulkExpectedFrom (old : List Entity) (term K rep : List Char) :
    ∀ (ps : List Paragraph) (i : Nat) (e : Entity),
      e ∈ bulkExpectedFrom old term K rep i ps →
      ∃ j p, ps.get? j = some p ∧ e ∈ bulkExpectedForPara old (i + j) p.text term K rep := by
  intro ps
  induction ps with
  | nil =>
    intro i e h
    rw [bulkExpectedFrom] at h
    exact absurd h (List.not_mem_nil e)
  | cons p ps ih =>
    intro i e h
    rw [bulkExpectedFrom] at h
    rcases List.mem_append.mp h with h' | h'
    · exact ⟨0, p, rfl, by simpa using h'⟩
    · obtain ⟨j, p', hj, hmem⟩ := ih (i + 1) e h'
      refine ⟨j + 1, p', by simpa using hj, ?_⟩
      have harith : i + (j + 1) = i + 1 + j := by omega
      rw [harith]
      exact hmem

theorem mem_bulkExpectedForPara {old : List Entity} {i : Nat}
    {ptext term K rep : List Char} {e : Entity}
    (h : e ∈ bulkExpectedForPara old i ptext term K rep) :
    ∃ pos, pos ≤ ptext.length ∧ e = mkBulkEntity i ptext term K rep pos := by
  rw [bulkExpectedForPara] at h
  obtain ⟨pos, hpos, rfl⟩ := List.mem_map.mp h
  have h1 := (List.mem_filter.mp hpos).1
  rw [occPositions] at h1
  have h2 := (List.mem_filter.mp h1).1
  rw [List.mem_range] at h2
  refine ⟨pos, ?_, rfl⟩
  have : (lowerL ptext).length = ptext.length := by simp [lowerL]
  omega

/-- Claim C3: every entity created by the regex fallback detector or by the
bulk manual insertion is offset-valid against the text it was created from:
`start_pos ≤ end_pos ≤ len(text)` and the stored `text` is the verbatim
original-casing slice at those offsets (even though the searches are
case-insensitive). -/
theorem C3_created_entities_satisfy_offset_validity :
    (∀ (t : List Char) (e : Entity), e ∈ extract_entities_regex t → entityValidFor t e) ∧
    (∀ (st : AppState) (raw K rep : List Char) (e : Entity),
      e ∈ (add_entity_without_search st raw K rep).1.entities →
      e ∈ st.entities ∨ e.paragraph_id = none ∨
        ∃ i p, e.paragraph_id = some i ∧ st.paragraphs.get? i = some p ∧
          entityValidFor p.text e) := by
  constructor
  · intro t e he
    rw [extract_entities_regex, List.mem_flatten] at he
    obtain ⟨inner, hinner, hins⟩ := he
    obtain ⟨pm, hpm, rfl⟩ := List.mem_map.mp hinner
    obtain ⟨se, hse, hfm⟩ := List.mem_filterMap.mp hins
    obtain ⟨hlt, k, hm, hk⟩ := scanFrom_sound pm.2 t t.length 0 se hse
    have hkle := patterns_matcher_le pm hpm _ _ _ hm
    split_ifs at hfm
    simp only [Option.some.injEq] at hfm
    subst hfm
    refine ⟨by simp; omega, ?_, rfl⟩
    simp only
    rw [List.length_drop] at hkle
    omega
  · intro st raw K rep e he
    rw [add_entity_without_search] at he
    split_ifs at he with h1
    · exact Or.inl he
    dsimp only at he
    split_ifs at he with h2 h3
    · exact Or.inl he
    · have hloop := bulkLoopParas_spec (pstrip raw) K rep st.entities st.paragraphs 0 [] 0
        (fun x hx => absurd hx (List.not_mem_nil x))
      rw [List.append_nil, Nat.zero_add] at hloop
      rw [hloop] at he
      dsimp only at he
      rcases List.mem_append.mp he with he' | he'
      · rcases List.mem_append.mp he' with he'' | he''
        · exact Or.inl he''
        · right; right
          obtain ⟨j, p, hj, hmem⟩ := mem_bulkExpectedFrom st.entities (pstrip raw) K rep
            st.paragraphs 0 e he''
          obtain ⟨pos, hple, rfl⟩ := mem_bulkExpectedForPara hmem
          exact ⟨0 + j, p, by simp [mkBulkEntity], by rw [Nat.zero_add]; exact hj, mkBulkEntity_valid _ _ _ _ _ _ hple⟩
      · rcases List.mem_singleton.mp he' with rfl
        right; left
        rw [generalEntity]
    · have hloop := bulkLoopParas_spec (pstrip raw) K rep st.entities st.paragraphs 0 [] 0
        (fun x hx => absurd hx (List.not_mem_nil x))
      rw [List.append_nil, Nat.zero_add] at hloop
      rw [hloop] at he
      dsimp only at he
      rcases List.mem_append.mp he with he' | he''
      · exact Or.inl he'
      · right; right
        obtain ⟨j, p, hj, hmem⟩ := mem_bulkExpectedFrom st.entities (pstrip raw) K rep
          st.paragraphs 0 e he''
        obtain ⟨pos, hple, rfl⟩ := mem_bulkExpectedForPara hmem
        exact ⟨0 + j, p, by simp [mkBulkEntity], by rw [Nat.zero_add]; exact hj, mkBulkEntity_valid _ _ _ _ _ _ hple⟩

/-- Witness for C3: a concrete regex extraction and a concrete bulk insert,
with validity checked at one created entity each. -/
theorem C3_created_entities_satisfy_offset_validity_witness :
    (∀ e ∈ extract_entities_regex "Alice met Bob".toList,
      entityValidFor "Alice met Bob".toList e) ∧
    (∀ e ∈ (add_entity_without_search
        { paragraphs := [{ id := 0, text := "The cat and the the dog".toList }],
          entities := [] } "the".toList "PERSON".toList []).1.entities,
      e.paragraph_id = some 0 →
        entityValidFor "The cat and the the dog".toList e) := by
  constructor
  · intro e he
    exact C3_created_entities_satisfy_offset_validity.1 "Alice met Bob".toList e he
  · intro e he hpid
    rcases C3_created_entities_satisfy_offset_validity.2
      { paragraphs := [{ id := 0, text := "The cat and the the dog".toList }],
        entities := [] } "the".toList "PERSON".toList [] e he with h | h | h
    · exact absurd h (List.not_mem_nil e)
    · rw [hpid] at h; exact absurd h (by simp)
    · obtain ⟨i, p, hpi, hget, hval⟩ := h
      rw [hpid] at hpi
      have hi : i = 0 := by
        cases hpi
        rfl
      subst hi
      have hp : p = { id := 0, text := "The cat and the the dog".toList } := by
        have hg : some ({ id := 0, text := "The cat and the the dog".toList } : Paragraph)
            = some p := hget
        exact (Option.some.inj hg).symm
      rw [hp] at hval
      exact hval
